import Mathlib

/-!
# uHAL address-tree node (`uhal::Node`)

A shallow embedding of `cactuscore/uhal/uhal/src/common/Node.cpp`: the node
record, the copy constructor / `clone` / `operator=`, `operator==`, the
dotted-path lookup `getNode` and the four register operations
`write`, `writeBlock`, `read`, `readBlock`.

Conventions of the embedding

* `uint32_t` and `std::size_t` values are natural numbers; the only place
  where wrap-around matters is `lPos--` in `getNode`, written modulo `2^64`.
* `std::string` is `String`, indexed by character position.
* A `Node*` held by a node is the position of the pointee below that node:
  the list of child indices that leads to it (`[]` is the node itself).
* `boost::unordered_map` is an association list with first-insert-wins
  `insert`; its iteration order is the list order.
* A call that may loop takes a fuel argument and answers `none` when the
  fuel is exhausted.
-/

namespace uhal

/-! ## `defs` -/

namespace defs

/-- Modelled from the spec: `defs::NodePermission`, declared in
`uhal/definitions.hpp` which is not part of the sources at hand. The spec
gives a permission as a subset of {Read, Write}; the source tests it with
`mPermission & defs::READ` and `mPermission & defs::WRITE`, so the value is
a bit set with one bit for each right. -/
abbrev NodePermission := Nat

/-- Modelled from the spec: the bit of the Read right. -/
def READ : NodePermission := 0x1

/-- Modelled from the spec: the bit of the Write right. -/
def WRITE : NodePermission := 0x2

/-- Modelled from the spec: both rights; the permission of `Node::Node()`. -/
def READWRITE : NodePermission := 0x3

/-- Modelled from the spec: `defs::NOMASK`, the 32-bit all-ones mask that
stands for "no masking". -/
def NOMASK : Nat := 0xFFFFFFFF

/-- The enumeration `defs::BlockReadWriteMode`; the four enumerators are the
cases of the `switch ( mMode )` of `Node::stream`. -/
inductive BlockReadWriteMode where
  | SINGLE
  | INCREMENTAL
  | NON_INCREMENTAL
  | HIERARCHICAL
  deriving DecidableEq, Repr

end defs

/-- The two access rights named by the spec. -/
inductive Access where
  | Read
  | Write
  deriving DecidableEq, Repr

/-- Membership of a right in a permission, as the spec words it
(`Read ∈ n.permission`): the right's bit is set in the permission value. -/
def Access.mem (a : Access) (p : defs.NodePermission) : Prop :=
  match a with
  | .Read => p.testBit 0 = true
  | .Write => p.testBit 1 = true

/-! ## Pointers and the children map -/

/-- A `Node*`: the child indices leading from the holder to the pointee. -/
abbrev NodePtr := List Nat

/-- The member `boost::unordered_map< std::string , Node* > mChildrenMap`. -/
abbrev ChildrenMap := List (String × NodePtr)

/-- `unordered_map::find`: the pointer stored under `k`, `none` for `end()`. -/
def ChildrenMap.find (m : ChildrenMap) (k : String) : Option NodePtr :=
  List.lookup k m

/-- `unordered_map::insert`: a key already present keeps its old value. -/
def ChildrenMap.insert (m : ChildrenMap) (k : String) (p : NodePtr) : ChildrenMap :=
  match m.find k with
  | some _ => m
  | none => m ++ [(k, p)]

/-- The keys of the map, in iteration order. -/
def ChildrenMap.keys (m : ChildrenMap) : List String :=
  m.map Prod.fst

/-! ## The node -/

/-- The data members of `class Node`. `mHw` is the back-pointer to the owning
`HwInterface` (`none` is `NULL`). -/
structure Node where
  mHw : Option Nat
  mUid : String
  mPartialAddr : Nat
  mAddr : Nat
  mMask : Nat
  mPermission : defs.NodePermission
  mMode : defs.BlockReadWriteMode
  mSize : Nat
  mTags : String
  mDescription : String
  mModule : String
  mParameters : List (String × String)
  mChildren : List Node
  mChildrenMap : ChildrenMap

namespace Node

/-- `Node::Node ( )`. -/
def default : Node :=
  { mHw := none, mUid := "", mPartialAddr := 0x00000000, mAddr := 0x00000000,
    mMask := defs.NOMASK, mPermission := defs.READWRITE,
    mMode := defs.BlockReadWriteMode.HIERARCHICAL, mSize := 0x00000001,
    mTags := "", mDescription := "", mModule := "", mParameters := [],
    mChildren := [], mChildrenMap := [] }

/-- The body of the second loop of the copy constructor for the child `c`
held at index `i` of `mChildren`: insert `c.mUid ↦ c`, then, for every entry
of the child's own map, `c.mUid + '.' + key ↦ pointee`. The pointee lies
below `c`, so seen from the parent its position gains the index `i`. -/
def indexChild (m : ChildrenMap) (i : Nat) (c : Node) : ChildrenMap :=
  c.mChildrenMap.foldl
    (fun acc e => acc.insert (c.mUid.push '.' ++ e.1) (i :: e.2))
    (m.insert c.mUid [i])

/-- The second loop of the copy constructor (and of `operator=`), run over
the children from index `i` on. -/
def indexChildren : List Node → Nat → ChildrenMap → ChildrenMap
  | [], _, m => m
  | c :: cs, i, m => indexChildren cs (i + 1) (indexChild m i c)

mutual
/-- `Node::Node ( const Node& aNode )`: the scalar members are copied, every
child is cloned (`( **lIt ).clone()` is `new Node ( **lIt )`), and the map is
built afresh from the clones. -/
def copy : Node → Node
  | ⟨hw, uid, pAddr, addr, mask, permission, mode, size, tags, description,
      module, parameters, children, _⟩ =>
    ⟨hw, uid, pAddr, addr, mask, permission, mode, size, tags, description,
      module, parameters, copyChildren children,
      indexChildren (copyChildren children) 0 []⟩
/-- The first loop of the copy constructor: `mChildren.push_back ( clone )`. -/
def copyChildren : List Node → List Node
  | [] => []
  | c :: cs => copy c :: copyChildren cs
end

/-- `Node::clone`: `return new Node ( *this )`. -/
def clone (n : Node) : Node := copy n

/-- `Node::operator=`. The right-hand side is taken by reference:
`aNode = none` stands for the self-assignment `a = a`, where `aNode` is
`*this` and every read of it sees what the assignment has written so far. -/
def assign (self : Node) (aNode : Option Node) : Node :=
  let rhs₀ := aNode.getD self
  -- the twelve member assignments
  let s₁ : Node := { self with
    mHw := rhs₀.mHw, mUid := rhs₀.mUid, mPartialAddr := rhs₀.mPartialAddr,
    mAddr := rhs₀.mAddr, mMask := rhs₀.mMask, mPermission := rhs₀.mPermission,
    mMode := rhs₀.mMode, mSize := rhs₀.mSize, mTags := rhs₀.mTags,
    mDescription := rhs₀.mDescription, mModule := rhs₀.mModule,
    mParameters := rhs₀.mParameters }
  -- delete the children, `mChildren.clear()`, `mChildrenMap.clear()`
  let s₂ : Node := { s₁ with mChildren := [], mChildrenMap := [] }
  -- `aNode.mChildren` as it is now
  let rhs₁ := aNode.getD s₂
  let s₃ : Node := { s₂ with mChildren := copyChildren rhs₁.mChildren }
  { s₃ with mChildrenMap := indexChildren s₃.mChildren 0 [] }

/-- `Node::operator==`. -/
def eq (a aNode : Node) : Bool :=
  a.mAddr == aNode.mAddr &&
  a.mMask == aNode.mMask &&
  a.mPermission == aNode.mPermission &&
  a.mUid == aNode.mUid

/-- Dereference a pointer held by `n`: follow the child indices. -/
def deref : Node → NodePtr → Option Node
  | n, [] => some n
  | n, i :: p =>
    match n.mChildren[i]? with
    | none => none
    | some c => deref c p

/-- The ids of the nodes met on the way from `n` down to the pointee of `p`
(`n` itself excluded, the pointee included). -/
def idsAlong : Node → NodePtr → Option (List String)
  | _, [] => some []
  | n, i :: p =>
    match n.mChildren[i]? with
    | none => none
    | some c => (idsAlong c p).map (fun ids => c.mUid :: ids)

end Node

/-- The dotted path `c1.c2. ... .ck` of a sequence of ids. -/
def dotted (ids : List String) : String :=
  String.intercalate "." ids

/-- Split a dotted path at every `'.'`. -/
def splitDots (path : String) : List String :=
  (path.data.splitOn '.').map String.mk

/-! ## Exceptions and outcomes -/

/-- The exceptions thrown by the member functions of `Node`. The
`NoBranchFoundWithGivenUID` exception carries what `getNode` logged into it:
the partial match (prefix and the node whose tree is printed), or `none` for
"Not even a partial match". -/
inductive exception where
  | NoBranchFoundWithGivenUID (matched : Option (String × NodePtr))
  | WriteAccessDenied
  | ReadAccessDenied
  | BulkTransferOnSingleRegister
  | BulkTransferRequestedTooLarge
  deriving DecidableEq, Repr

/-- How a call ends: it returns, it throws, or it dereferences the null
`mHw` of a node that no `HwInterface` has claimed. -/
inductive Outcome (α : Type) where
  | returned (a : α)
  | thrown (e : exception)
  | nullHw
  deriving DecidableEq, Repr

/-- The call that a register operation forwards to `mHw->getClient()`; the
operation returns whatever that call returns. -/
inductive ClientCall where
  | write (aAddr aValue : Nat)
  | writeMasked (aAddr aValue aMask : Nat)
  | writeBlock (aAddr : Nat) (aValues : List Nat) (aMode : defs.BlockReadWriteMode)
  | read (aAddr : Nat)
  | readMasked (aAddr aMask : Nat)
  | readBlock (aAddr aSize : Nat) (aMode : defs.BlockReadWriteMode)
  deriving DecidableEq, Repr

/-- `mHw->getClient().f ( ... )`: defined only when `mHw` is not null. -/
def Node.viaClient (n : Node) (c : ClientCall) : Outcome ClientCall :=
  match n.mHw with
  | none => .nullHw
  | some _ => .returned c

namespace Node

/-- `Node::write`. -/
def write (n : Node) (aValue : Nat) : Outcome ClientCall :=
  if n.mPermission &&& defs.WRITE ≠ 0 then
    if n.mMask = defs.NOMASK then
      n.viaClient (.write n.mAddr aValue)
    else
      n.viaClient (.writeMasked n.mAddr aValue n.mMask)
  else
    .thrown .WriteAccessDenied

/-- `Node::writeBlock`. -/
def writeBlock (n : Node) (aValues : List Nat) : Outcome ClientCall :=
  if n.mMode = defs.BlockReadWriteMode.SINGLE ∧ aValues.length ≠ 1 then
    .thrown .BulkTransferOnSingleRegister
  else if n.mSize ≠ 1 ∧ aValues.length > n.mSize then
    .thrown .BulkTransferRequestedTooLarge
  else if n.mPermission &&& defs.WRITE ≠ 0 then
    n.viaClient (.writeBlock n.mAddr aValues n.mMode)
  else
    .thrown .WriteAccessDenied

/-- `Node::read`. -/
def read (n : Node) : Outcome ClientCall :=
  if n.mPermission &&& defs.READ ≠ 0 then
    if n.mMask = defs.NOMASK then
      n.viaClient (.read n.mAddr)
    else
      n.viaClient (.readMasked n.mAddr n.mMask)
  else
    .thrown .ReadAccessDenied

/-- `Node::readBlock`. -/
def readBlock (n : Node) (aSize : Nat) : Outcome ClientCall :=
  if n.mMode = defs.BlockReadWriteMode.SINGLE ∧ aSize ≠ 1 then
    .thrown .BulkTransferOnSingleRegister
  else if n.mSize ≠ 1 ∧ aSize > n.mSize then
    .thrown .BulkTransferRequestedTooLarge
  else if n.mPermission &&& defs.READ ≠ 0 then
    n.viaClient (.readBlock n.mAddr aSize n.mMode)
  else
    .thrown .ReadAccessDenied

end Node

/-! ## `std::string` searching and `Node::getNode` -/

/-- `std::string::npos`, the largest `std::size_t`. -/
def npos : Nat := 2 ^ 64 - 1

/-- Scan `l[i], l[i-1], ..., l[0]` for `c`; `npos` when it is not there. -/
def rfindFrom (l : List Char) (c : Char) : Nat → Nat
  | 0 => if l[0]? = some c then 0 else npos
  | i + 1 => if l[i + 1]? = some c then i + 1 else rfindFrom l c i

/-- `std::string::rfind ( char c , size_type pos )`: the last position not
after `pos` that holds `c`, or `npos`. -/
def rfind (s : String) (c : Char) (pos : Nat) : Nat :=
  if s.length = 0 then npos
  else rfindFrom s.data c (min (s.length - 1) pos)

/-- `std::string::substr ( pos , len )`, for `pos` not past the end. -/
def substr (s : String) (pos len : Nat) : String :=
  ⟨(s.data.drop pos).take len⟩

namespace Node

/-- The `while ( true )` loop of `Node::getNode`, entered with the current
`lPos`. The answer is what the loop leaves behind for the exception:
`some (prefix, node)` after "Partial match", `none` when `lPartialMatch` is
still false at the `break`. -/
def getNodeLoop (m : ChildrenMap) (aId : String) : Nat → Nat → Option (Option (String × NodePtr))
  | 0, _ => none
  | fuel + 1, lPos =>
    let lPos := rfind aId '.' lPos
    if lPos = npos then
      some none
    else
      match m.find (substr aId 0 lPos) with
      | some p => some (some (substr aId 0 lPos, p))
      | none => getNodeLoop m aId fuel ((lPos + (2 ^ 64 - 1)) % 2 ^ 64)

/-- `Node::getNode`. -/
def getNode (fuel : Nat) (n : Node) (aId : String) : Option (Outcome NodePtr) :=
  if aId.length = 0 then
    some (.returned [])
  else
    match n.mChildrenMap.find aId with
    | some p => some (.returned p)
    | none =>
      (getNodeLoop n.mChildrenMap aId fuel npos).map
        (fun d => .thrown (.NoBranchFoundWithGivenUID d))

end Node

end uhal

/-! ## Listing the nodes -/

namespace uhal

open Node defs

/-- Lexicographic comparison of two character sequences: the first
position where they differ decides, and a proper beginning of a sequence is
less than the sequence. -/
def lexLess : List Char → List Char → Bool
  | [], [] => false
  | [], _ :: _ => true
  | _ :: _, [] => false
  | a :: as, b :: bs =>
    if a.toNat < b.toNat then true
    else if b.toNat < a.toNat then false
    else lexLess as bs

/-- `std::string::operator<`. -/
def stringLess (a b : String) : Bool :=
  lexLess a.data b.data

/-- `std::sort ( lNodes.begin(), lNodes.end() )` on strings: the ascending
rearrangement under `operator<` (`a` stays before `b` unless `b < a`). -/
def sortStrings (l : List String) : List String :=
  l.insertionSort (fun a b => stringLess b a = false)

namespace Node

/-- `Node::getNodes ( )`: the loop pushes the key of every entry of the map,
in iteration order. -/
def getNodes (n : Node) : List String :=
  n.mChildrenMap.foldl (fun lNodes e => lNodes ++ [e.1]) []

/-- `Node::getNodes ( const std::string& aRegex )`. The library call
`boost::regex_match ( key , lMatch , boost::regex ( aRegex ) )` is the
argument `regex_match key aRegex`: whether the whole of `key` matches the
expression (the call is made without `match_partial`). -/
def getNodesRegex (regex_match : String → String → Bool) (n : Node) (aRegex : String) :
    List String :=
  sortStrings
    (n.mChildrenMap.foldl
      (fun lNodes e => if regex_match e.1 aRegex then lNodes ++ [e.1] else lNodes) [])

end Node

/-! ## The client seen from the node -/

/-- Modelled from the spec: the part of the state of a `ClientInterface`
that the builder operations touch, the pending send buffer and the list of
pending-reply descriptors. The class itself (`uhal/ClientInterface.hpp`) is
not among the sources. -/
structure ClientInterface where
  sendBuffer : List Nat
  pendingReplies : List Nat
  deriving DecidableEq, Repr

/-- The client calls that a register operation has issued when it ends. -/
def Outcome.issued : Outcome ClientCall → List ClientCall
  | .returned c => [c]
  | .thrown _ => []
  | .nullHw => []

/-- The state of the client after a register operation: `perform` is what
the client does with a call it receives; nothing else touches the client. -/
def Outcome.clientAfter (perform : ClientCall → ClientInterface → ClientInterface)
    (o : Outcome ClientCall) (client : ClientInterface) : ClientInterface :=
  o.issued.foldl (fun st c => perform c st) client

/-- The permission with the Read and the Write right exchanged. -/
def swapReadWrite (p : defs.NodePermission) : defs.NodePermission :=
  (if p &&& defs.WRITE ≠ 0 then defs.READ else 0) |||
  (if p &&& defs.READ ≠ 0 then defs.WRITE else 0)

/-- How a register operation ran against the client: the client calls it
made, in order, the state it left the client in, and how it ended. -/
structure Run where
  issued : List ClientCall
  client : ClientInterface
  outcome : Outcome ClientCall

/-- `mHw->getClient().f ( ... )` run against the client state `st`: with a
null `mHw` nothing reaches the client; otherwise the call is made, the client
does with it what `perform` says, and the operation returns its result. -/
def Node.callClient (perform : ClientCall → ClientInterface → ClientInterface)
    (n : Node) (c : ClientCall) (st : ClientInterface) : Run :=
  match n.mHw with
  | none => { issued := [], client := st, outcome := .nullHw }
  | some _ => { issued := [c], client := perform c st, outcome := .returned c }

/-- `Node::write`, statement by statement, with the state of the client
passed along. -/
def Node.writeRun (perform : ClientCall → ClientInterface → ClientInterface)
    (n : Node) (aValue : Nat) (st : ClientInterface) : Run :=
  if n.mPermission &&& defs.WRITE ≠ 0 then
    if n.mMask = defs.NOMASK then
      n.callClient perform (.write n.mAddr aValue) st
    else
      n.callClient perform (.writeMasked n.mAddr aValue n.mMask) st
  else
    { issued := [], client := st, outcome := .thrown .WriteAccessDenied }

/-- `Node::writeBlock`, with the state of the client passed along. -/
def Node.writeBlockRun (perform : ClientCall → ClientInterface → ClientInterface)
    (n : Node) (aValues : List Nat) (st : ClientInterface) : Run :=
  if n.mMode = defs.BlockReadWriteMode.SINGLE ∧ aValues.length ≠ 1 then
    { issued := [], client := st, outcome := .thrown .BulkTransferOnSingleRegister }
  else if n.mSize ≠ 1 ∧ aValues.length > n.mSize then
    { issued := [], client := st, outcome := .thrown .BulkTransferRequestedTooLarge }
  else if n.mPermission &&& defs.WRITE ≠ 0 then
    n.callClient perform (.writeBlock n.mAddr aValues n.mMode) st
  else
    { issued := [], client := st, outcome := .thrown .WriteAccessDenied }

/-- `Node::read`, with the state of the client passed along. -/
def Node.readRun (perform : ClientCall → ClientInterface → ClientInterface)
    (n : Node) (st : ClientInterface) : Run :=
  if n.mPermission &&& defs.READ ≠ 0 then
    if n.mMask = defs.NOMASK then
      n.callClient perform (.read n.mAddr) st
    else
      n.callClient perform (.readMasked n.mAddr n.mMask) st
  else
    { issued := [], client := st, outcome := .thrown .ReadAccessDenied }

/-- `Node::readBlock`, with the state of the client passed along. -/
def Node.readBlockRun (perform : ClientCall → ClientInterface → ClientInterface)
    (n : Node) (aSize : Nat) (st : ClientInterface) : Run :=
  if n.mMode = defs.BlockReadWriteMode.SINGLE ∧ aSize ≠ 1 then
    { issued := [], client := st, outcome := .thrown .BulkTransferOnSingleRegister }
  else if n.mSize ≠ 1 ∧ aSize > n.mSize then
    { issued := [], client := st, outcome := .thrown .BulkTransferRequestedTooLarge }
  else if n.mPermission &&& defs.READ ≠ 0 then
    n.callClient perform (.readBlock n.mAddr aSize n.mMode) st
  else
    { issued := [], client := st, outcome := .thrown .ReadAccessDenied }

/-! ## `HwInterface` -/

mutual
/-- `HwInterface::claimNode`: `aNode.mHw = this`, then the same for every
child. -/
def claimNode (this : Nat) : Node → Node
  | ⟨_, uid, pAddr, addr, mask, permission, mode, size, tags, description,
      module, parameters, children, map⟩ =>
    ⟨some this, uid, pAddr, addr, mask, permission, mode, size, tags, description,
      module, parameters, claimChildren this children, map⟩
/-- The loop of `HwInterface::claimNode` over the children. -/
def claimChildren (this : Nat) : List Node → List Node
  | [] => []
  | c :: cs => claimNode this c :: claimChildren this cs
end

/-- The data members of `class HwInterface`; the client is held by shared
pointer and stands here as its address. -/
structure HwInterface where
  mClientInterface : Nat
  mNode : Node

/-- `HwInterface::HwInterface`, for the object constructed at address
`this`: the two members are set and the tree is claimed in place. -/
def HwInterface.construct (this : Nat) (aClientInterface : Nat) (aNode : Node) :
    HwInterface :=
  { mClientInterface := aClientInterface, mNode := claimNode this aNode }

/-! ## `ControlHub` -/

/-- The struct `ControlHub::tpreamble`; the two pointers into the send buffer
stand as positions. -/
structure tpreamble where
  mSendByteCountPtr : Nat
  mSendWordCountPtr : Nat
  mReplyTotalByteCounter : Nat
  mReplyChunkByteCounter : Nat
  mReplyDeviceIPaddress : Nat
  mReplyDevicePort : Nat
  mReplyErrorCode : Nat
  deriving DecidableEq, Repr

/-- The class template `ControlHub < InnerProtocol >`: the base-class object
and the data members declared in `ProtocolControlHub.hpp`. -/
structure ControlHub (InnerProtocol : Type) where
  inner : InnerProtocol
  mDeviceIPaddress : Nat
  mDevicePort : Nat
  mTransactionCounter : Nat
  mPreambles : List tpreamble

/-- `ControlHub::getMaxNumberOfBuffers`. -/
def ControlHub.getMaxNumberOfBuffers {InnerProtocol : Type}
    (_hub : ControlHub InnerProtocol) : Nat :=
  16

end uhal

/-! ## Notions used to state the index properties -/

namespace uhal

open Node defs

/-- The trees that the copying operations of `Node` produce: the result of
the copy constructor, of `clone`, and `*this` after `operator=`. -/
inductive Produced : Node → Prop where
  | copy (aNode : Node) : Produced (Node.copy aNode)
  | clone (n : Node) : Produced (Node.clone n)
  | assign (self : Node) (aNode : Option Node) : Produced (Node.assign self aNode)

/-- Every node of the tree holds the map that the second loop of the copy
constructor builds from its children. -/
def Rebuilt (R : Node) : Prop :=
  ∀ q n, R.deref q = some n → n.mChildrenMap = indexChildren n.mChildren 0 []

/-- The data model's reading of `descendant_index` for the node `n`: the
keys of its map are exactly the dotted paths of its descendants. -/
def IndexedByPaths (n : Node) : Prop :=
  ∀ k, k ∈ n.mChildrenMap.keys ↔
    ∃ p ids, p ≠ [] ∧ n.idsAlong p = some ids ∧ k = dotted ids

/-- The first child with the given id, with its index. -/
def firstWithId : List Node → String → Option (Nat × Node)
  | [], _ => none
  | c :: cs, id =>
    if c.mUid = id then some (0, c)
    else (firstWithId cs id).map (fun r => (r.1 + 1, r.2))

/-- Descend from `n` through the child with each id in turn; the answer is
the position reached, `none` when some node on the way has no child with the
id asked for. -/
def Node.descend : Node → List String → Option NodePtr
  | _, [] => some []
  | n, id :: ids =>
    match firstWithId n.mChildren id with
    | none => none
    | some (i, c) => (Node.descend c ids).map (fun p => i :: p)

mutual
/-- No two children of one node have the same id, at the node and at every
node below it. -/
def distinctSiblings : Node → Bool
  | ⟨_, _, _, _, _, _, _, _, _, _, _, _, children, _⟩ =>
    decide ((children.map Node.mUid).Nodup) && distinctSiblingsAll children
/-- The same for every node of a list. -/
def distinctSiblingsAll : List Node → Bool
  | [] => true
  | c :: cs => distinctSiblings c && distinctSiblingsAll cs
end

mutual
/-- The ids of all the descendants of a node, the node itself excluded. -/
def descendantIds : Node → List String
  | ⟨_, _, _, _, _, _, _, _, _, _, _, _, children, _⟩ => descendantIdsOf children
/-- The ids of the given nodes and of all their descendants. -/
def descendantIdsOf : List Node → List String
  | [] => []
  | c :: cs => c.mUid :: (descendantIds c ++ descendantIdsOf cs)
end

end uhal

/-! ## Example nodes -/

namespace uhal

open Node defs

/-- A register claimed by the hardware interface at address 7: read-write,
unmasked, incremental block of 8 words at `0x1000`. -/
def exBlock : Node :=
  { Node.default with
    mHw := some 7, mUid := "b", mAddr := 0x1000,
    mMode := BlockReadWriteMode.INCREMENTAL, mSize := 8 }

/-- A claimed single register. -/
def exSingle : Node :=
  { Node.default with
    mHw := some 7, mUid := "r", mAddr := 0x1000, mMode := BlockReadWriteMode.SINGLE }

/-- An unclaimed leaf with the given id. -/
def exLeaf (uid : String) : Node :=
  { Node.default with mUid := uid }

/-- The branch `a.b.c` of the path-miss scenario, from `a` down. -/
def exChainA : Node :=
  { exLeaf "a" with mChildren := [{ exLeaf "b" with mChildren := [exLeaf "c"] }] }

/-- The tree of the path-miss scenario: a root whose only branch is
`a.b.c`, with no map filled in yet. -/
def exChain : Node :=
  { exLeaf "root" with mChildren := [exChainA] }

/-- A root whose single child has an id with a `'.'` in it. -/
def exDotted : Node :=
  { exLeaf "root" with mChildren := [exLeaf "a.b"] }

/-- A read-only claimed block: incremental, 4 words. -/
def exReadOnly : Node :=
  { exBlock with mPermission := READ, mSize := 4 }

/-- A write-only claimed block: incremental, 4 words. -/
def exWriteOnly : Node :=
  { exBlock with mPermission := WRITE, mSize := 4 }

/-- A claimed register with a mask other than `NOMASK`. -/
def exMasked : Node :=
  { exSingle with mMask := 0x00FF0000 }

/-- A whole-string matcher for two expressions: `a.*` matches the strings
that begin with `a`, any other expression matches itself only. -/
def exMatch (key aRegex : String) : Bool :=
  if aRegex = "a.*" then key.data.head? = some 'a' else key = aRegex

/-- A tree with the branch `a.b.c` and a second child `Z`, so that iteration
order and sorted order of the keys differ. -/
def exTwo : Node :=
  { exLeaf "root" with mChildren := [exLeaf "b", exChainA, exLeaf "Z"] }

/-- A client that appends the address of every call to its send buffer and
counts the call among the pending replies. -/
def exPerform (c : ClientCall) (st : ClientInterface) : ClientInterface :=
  match c with
  | .write a _ | .writeMasked a _ _ | .writeBlock a _ _
  | .read a | .readMasked a _ | .readBlock a _ _ =>
    { sendBuffer := st.sendBuffer ++ [a], pendingReplies := st.pendingReplies ++ [a] }

/-- A claimed single register without the Write right. -/
def exSingleReadOnly : Node :=
  { exSingle with mPermission := READ }

/-- A claimed single register of size 0. -/
def exSingleZero : Node :=
  { exSingle with mSize := 0 }

/-- A claimed incremental block of size 0. -/
def exZero : Node :=
  { exBlock with mSize := 0 }

/-- A claimed non-incremental (FIFO) endpoint of size 1. -/
def exFifo : Node :=
  { exBlock with mMode := BlockReadWriteMode.NON_INCREMENTAL, mSize := 1 }

/-- A root with two children of the same id `a`, the second with a child
`b`; no id has a `'.'` in it. -/
def exRepeated : Node :=
  { exLeaf "root" with
    mChildren := [exLeaf "a", { exLeaf "a" with mChildren := [exLeaf "b"] }] }

/-- A root with the single leaf child `a`. -/
def exOneChild : Node :=
  { exLeaf "root" with mChildren := [exLeaf "a"] }

end uhal

/-! # Theorems -/

namespace uhal

open Node defs

/-! ## Permission bits -/

theorem and_READ_ne_zero (p : Nat) : p &&& READ ≠ 0 ↔ Access.Read.mem p := by
  show p &&& 1 ≠ 0 ↔ p.testBit 0 = true
  rw [Nat.and_one_is_mod, Nat.testBit_zero]
  rcases Nat.mod_two_eq_zero_or_one p with h | h <;> simp [h]

theorem and_WRITE_ne_zero (p : Nat) : p &&& WRITE ≠ 0 ↔ Access.Write.mem p := by
  show p &&& 2 ≠ 0 ↔ p.testBit 1 = true
  constructor
  · intro h
    obtain ⟨i, hi⟩ := Nat.ne_zero_implies_bit_true h
    rw [Nat.testBit_and] at hi
    have h2 : (2 : Nat).testBit i = decide (1 = i) := by
      have := @Nat.testBit_two_pow 1 i
      simpa using this
    simp [h2] at hi
    obtain ⟨h1, rfl⟩ := hi
    exact h1
  · intro h hz
    have : (p &&& 2).testBit 1 = true := by
      rw [Nat.testBit_and, h]; decide
    rw [hz] at this
    simp at this

theorem viaClient_of_claimed (n : Node) (hw : n.mHw ≠ none) (c : ClientCall) :
    n.viaClient c = .returned c := by
  unfold Node.viaClient
  cases h : n.mHw with
  | none => exact absurd h hw
  | some _ => rfl

/-! ## C1 – C3: the gates of the register operations -/

/-- C1 — Permission gate. For every node that a hardware interface has
claimed (so that its client can be reached), `read()` returns if and only if
Read is in the permission and otherwise throws `ReadAccessDenied`; for every
value `v`, `write(v)` returns if and only if Write is in the permission and
otherwise throws `WriteAccessDenied`. -/
theorem permission_gate (n : Node) (hw : n.mHw ≠ none) :
    ((∃ c, n.read = .returned c) ↔ Access.Read.mem n.mPermission) ∧
    (¬ Access.Read.mem n.mPermission → n.read = .thrown .ReadAccessDenied) ∧
    (∀ v : Nat,
      ((∃ c, n.write v = .returned c) ↔ Access.Write.mem n.mPermission) ∧
      (¬ Access.Write.mem n.mPermission → n.write v = .thrown .WriteAccessDenied)) := by
  refine ⟨?_, ?_, ?_⟩
  · rw [← and_READ_ne_zero]
    unfold Node.read
    by_cases hp : n.mPermission &&& READ ≠ 0
    · rw [if_pos hp]
      simp only [viaClient_of_claimed n hw]
      refine ⟨fun _ => hp, fun _ => ?_⟩
      by_cases hm : n.mMask = NOMASK
      · exact ⟨_, by rw [if_pos hm]⟩
      · exact ⟨_, by rw [if_neg hm]⟩
    · rw [if_neg hp]
      refine ⟨?_, fun h => absurd h hp⟩
      rintro ⟨c, hc⟩
      cases hc
  · intro h
    rw [← and_READ_ne_zero] at h
    unfold Node.read
    rw [if_neg h]
  · intro v
    constructor
    · rw [← and_WRITE_ne_zero]
      unfold Node.write
      by_cases hp : n.mPermission &&& WRITE ≠ 0
      · rw [if_pos hp]
        simp only [viaClient_of_claimed n hw]
        refine ⟨fun _ => hp, fun _ => ?_⟩
        by_cases hm : n.mMask = NOMASK
        · exact ⟨_, by rw [if_pos hm]⟩
        · exact ⟨_, by rw [if_neg hm]⟩
      · rw [if_neg hp]
        refine ⟨?_, fun h => absurd h hp⟩
        rintro ⟨c, hc⟩
        cases hc
    · intro h
      rw [← and_WRITE_ne_zero] at h
      unfold Node.write
      rw [if_neg h]

/-- Witness of C1 at the claimed read-write block `exBlock`. -/
theorem permission_gate_witness :
    exBlock.mHw ≠ none ∧
    (((∃ c, exBlock.read = .returned c) ↔ Access.Read.mem exBlock.mPermission) ∧
     (¬ Access.Read.mem exBlock.mPermission → exBlock.read = .thrown .ReadAccessDenied) ∧
     (∀ v : Nat,
       ((∃ c, exBlock.write v = .returned c) ↔ Access.Write.mem exBlock.mPermission) ∧
       (¬ Access.Write.mem exBlock.mPermission →
          exBlock.write v = .thrown .WriteAccessDenied))) :=
  ⟨by decide, permission_gate exBlock (by decide)⟩

/-- C2 — Block-size gate. For every node whose mode is `SINGLE`, whatever its
permission, size and hardware pointer, `writeBlock(values)` with
`values.size() != 1` and `readBlock(n)` with `n != 1` throw
`BulkTransferOnSingleRegister`; length 0 is included. -/
theorem block_size_gate (n : Node) (hm : n.mMode = BlockReadWriteMode.SINGLE) :
    (∀ aValues : List Nat, aValues.length ≠ 1 →
      n.writeBlock aValues = .thrown .BulkTransferOnSingleRegister) ∧
    (∀ aSize : Nat, aSize ≠ 1 →
      n.readBlock aSize = .thrown .BulkTransferOnSingleRegister) := by
  constructor
  · intro aValues hl
    unfold Node.writeBlock
    rw [if_pos ⟨hm, hl⟩]
  · intro aSize hl
    unfold Node.readBlock
    rw [if_pos ⟨hm, hl⟩]

/-- Witness of C2 at the single register `exSingle`, with lengths 0 and 2. -/
theorem block_size_gate_witness :
    exSingle.mMode = BlockReadWriteMode.SINGLE ∧
    exSingle.writeBlock [] = .thrown .BulkTransferOnSingleRegister ∧
    exSingle.writeBlock [5, 6] = .thrown .BulkTransferOnSingleRegister ∧
    exSingle.readBlock 0 = .thrown .BulkTransferOnSingleRegister ∧
    exSingle.readBlock 2 = .thrown .BulkTransferOnSingleRegister :=
  ⟨by decide,
   (block_size_gate exSingle (by decide)).1 [] (by decide),
   (block_size_gate exSingle (by decide)).1 [5, 6] (by decide),
   (block_size_gate exSingle (by decide)).2 0 (by decide),
   (block_size_gate exSingle (by decide)).2 2 (by decide)⟩

/-- C3 — Too-large gate. For every node whose mode is not `SINGLE` and whose
size is greater than 1, `writeBlock(values)` with `values.size() > size` and
`readBlock(n)` with `n > size` throw `BulkTransferRequestedTooLarge`; and for
every node at all, a block operation of length at most the size never ends
with `BulkTransferRequestedTooLarge`. -/
theorem too_large_gate (n : Node) :
    (n.mMode ≠ BlockReadWriteMode.SINGLE → 1 < n.mSize →
      (∀ aValues : List Nat, n.mSize < aValues.length →
        n.writeBlock aValues = .thrown .BulkTransferRequestedTooLarge) ∧
      (∀ aSize : Nat, n.mSize < aSize →
        n.readBlock aSize = .thrown .BulkTransferRequestedTooLarge)) ∧
    (∀ aValues : List Nat, aValues.length ≤ n.mSize →
      n.writeBlock aValues ≠ .thrown .BulkTransferRequestedTooLarge) ∧
    (∀ aSize : Nat, aSize ≤ n.mSize →
      n.readBlock aSize ≠ .thrown .BulkTransferRequestedTooLarge) := by
  refine ⟨fun hm hs => ⟨?_, ?_⟩, ?_, ?_⟩
  · intro aValues hl
    unfold Node.writeBlock
    rw [if_neg (fun h => hm h.1), if_pos ⟨by omega, hl⟩]
  · intro aSize hl
    unfold Node.readBlock
    rw [if_neg (fun h => hm h.1), if_pos ⟨by omega, hl⟩]
  · intro aValues hl
    unfold Node.writeBlock Node.viaClient
    have hgt : ¬ (n.mSize ≠ 1 ∧ aValues.length > n.mSize) := fun h => by omega
    rw [if_neg hgt]
    split
    · simp
    · split
      · cases n.mHw <;> simp
      · simp
  · intro aSize hl
    unfold Node.readBlock Node.viaClient
    have hgt : ¬ (n.mSize ≠ 1 ∧ aSize > n.mSize) := fun h => by omega
    rw [if_neg hgt]
    split
    · simp
    · split
      · cases n.mHw <;> simp
      · simp

/-- Witness of C3: the incremental block of size 8 rejects `readBlock(9)` and
a write of 9 words, and does not reject 8 words as too large. -/
theorem too_large_gate_witness :
    exBlock.mMode ≠ BlockReadWriteMode.SINGLE ∧ 1 < exBlock.mSize ∧
    exBlock.readBlock 9 = .thrown .BulkTransferRequestedTooLarge ∧
    exBlock.writeBlock [1, 2, 3, 4, 5, 6, 7, 8, 9]
      = .thrown .BulkTransferRequestedTooLarge ∧
    exBlock.readBlock 8 ≠ .thrown .BulkTransferRequestedTooLarge :=
  ⟨by decide, by decide,
   ((too_large_gate exBlock).1 (by decide) (by decide)).2 9 (by decide),
   ((too_large_gate exBlock).1 (by decide) (by decide)).1 _ (by decide),
   (too_large_gate exBlock).2.2 8 (by decide)⟩

/-! ## C10: `operator==` -/

/-- C10 — Node equality. For every pair of nodes, `a == b` holds if and only
if they have the same address, mask, permission and id; any two nodes that
agree with `a` and `b` on these four members, whatever their mode, size,
partial address, metadata, children, map and hardware pointer, compare the
same way. -/
theorem node_equality (a b : Node) :
    (a.eq b = true ↔
      a.mAddr = b.mAddr ∧ a.mMask = b.mMask ∧ a.mPermission = b.mPermission ∧
      a.mUid = b.mUid) ∧
    (∀ a' b' : Node,
      a'.mAddr = a.mAddr → a'.mMask = a.mMask → a'.mPermission = a.mPermission →
      a'.mUid = a.mUid →
      b'.mAddr = b.mAddr → b'.mMask = b.mMask → b'.mPermission = b.mPermission →
      b'.mUid = b.mUid →
      a'.eq b' = a.eq b) := by
  constructor
  · unfold Node.eq
    simp only [Bool.and_eq_true, beq_iff_eq, and_assoc]
  · intro a' b' h1 h2 h3 h4 h5 h6 h7 h8
    unfold Node.eq
    rw [h1, h2, h3, h4, h5, h6, h7, h8]

/-- Witness of C10: the block and the single register of the examples differ
in id only among the four members, and `exBlock` equals a copy of itself
that has another mode, size and partial address. -/
theorem node_equality_witness :
    exBlock.eq exSingle = false ∧
    ({ exBlock with mMode := BlockReadWriteMode.SINGLE, mSize := 1,
                    mPartialAddr := 5, mChildren := [exLeaf "x"] } : Node).eq exBlock
      = exBlock.eq exBlock ∧
    exBlock.eq exBlock = true :=
  ⟨by decide,
   (node_equality exBlock exBlock).2 _ _ rfl rfl rfl rfl rfl rfl rfl rfl,
   (node_equality exBlock exBlock).1.2 ⟨rfl, rfl, rfl, rfl⟩⟩

/-! ## C4 – C6: `getNode` -/

theorem mem_keys_iff_find (m : ChildrenMap) (k : String) :
    k ∈ m.keys ↔ ∃ p, m.find k = some p := by
  unfold ChildrenMap.keys ChildrenMap.find
  induction m with
  | nil => simp
  | cons e m ih =>
    obtain ⟨k', p'⟩ := e
    by_cases hk : k = k'
    · subst hk
      simp [List.lookup]
    · have hb : (k == k') = false := by simpa using hk
      simp only [List.map_cons, List.mem_cons, hk, false_or, List.lookup, hb]
      exact ih

theorem not_mem_keys_iff_find (m : ChildrenMap) (k : String) :
    k ∉ m.keys ↔ m.find k = none := by
  rw [mem_keys_iff_find]
  cases m.find k <;> simp

theorem length_ne_zero_of_ne_empty (s : String) (h : s ≠ "") : ¬ (s.length = 0) := by
  intro h0
  apply h
  apply String.ext
  have : s.data.length = 0 := h0
  exact List.length_eq_zero.1 this

/-- While the last `'.'` of the path is its first character and the empty
string is not a key, one turn of the loop brings `lPos` back to `npos`:
`lPos--` at 0 wraps around. No amount of fuel ends the loop. -/
theorem getNodeLoop_stuck (m : ChildrenMap) (aId : String)
    (h0 : rfind aId '.' npos = 0) (hk : m.find (substr aId 0 0) = none) (fuel : Nat) :
    getNodeLoop m aId fuel npos = none := by
  induction fuel with
  | zero => rfl
  | succ k ih =>
    have e3 : (0 + (2 ^ 64 - 1)) % 2 ^ 64 = npos := by decide
    have e4 : (0 : Nat) ≠ npos := by decide
    rw [getNodeLoop]
    simp only [h0, hk, e3, if_neg e4]
    exact ih

/-- C5 — Lookup hit. For every node and every non-empty path that is a key
of its map, `getNode` returns, whatever the fuel, exactly the pointer stored
under that key, and throws nothing. -/
theorem lookup_hit (n : Node) (aId : String) (hne : aId ≠ "")
    (hk : aId ∈ n.mChildrenMap.keys) :
    ∃ p, n.mChildrenMap.find aId = some p ∧
      ∀ fuel : Nat, getNode fuel n aId = some (.returned p) := by
  obtain ⟨p, hp⟩ := (mem_keys_iff_find _ _).1 hk
  refine ⟨p, hp, fun fuel => ?_⟩
  unfold Node.getNode
  rw [if_neg (length_ne_zero_of_ne_empty aId hne), hp]

/-- Witness of C5: in the copy of the chain `a.b.c`, the path `a.b` is found
and the lookup returns the grandchild at position `[0, 0]`. -/
theorem lookup_hit_witness :
    "a.b" ≠ "" ∧ "a.b" ∈ (copy exChain).mChildrenMap.keys ∧
    ∃ p, (copy exChain).mChildrenMap.find "a.b" = some p ∧
      ∀ fuel : Nat, getNode fuel (copy exChain) "a.b" = some (.returned p) :=
  ⟨by decide, by decide, lookup_hit (copy exChain) "a.b" (by decide) (by decide)⟩

/-- The path-miss scenario of the spec: the map built from `a.b.c` only,
asked for `a.b.d`, throws `NoBranchFoundWithGivenUID` naming `a.b`, the node
at position `[0, 0]`. -/
theorem path_miss_scenario :
    getNode 3 (copy exChain) "a.b.d"
      = some (.thrown (.NoBranchFoundWithGivenUID (some ("a.b", [0, 0])))) := by
  decide

/-- C4 — Lookup miss, evaluated where the code departs from the claim: the
path `.b` is not empty and is not a key of the map `{a}`, yet `getNode`
neither throws nor returns, whatever the fuel: the loop that prepares the
exception never ends. -/
theorem lookup_miss_leading_dot_never_throws :
    ".b" ≠ "" ∧ ".b" ∉ (copy exOneChild).mChildrenMap.keys ∧
    ∀ fuel : Nat, getNode fuel (copy exOneChild) ".b" = none := by
  refine ⟨by decide, by decide, fun fuel => ?_⟩
  have h1 : (copy exOneChild).mChildrenMap.find ".b" = none := by decide
  have h3 : ¬ (".b".length = 0) := by decide
  rw [getNode, if_neg h3, h1]
  rw [getNodeLoop_stuck (copy exOneChild).mChildrenMap ".b" (by decide) (by decide) fuel]
  rfl

/-- C6 — Longest-prefix diagnostic, evaluated where the code departs from
the claim: for the map built from `a.b.c` only and the path `.a`, the one
proper prefix that ends before a `'.'` is the empty string, which is not a
key, so the claim asks for "not even a partial match"; the loop reports
nothing at all, whatever the fuel. -/
theorem diagnostic_leading_dot_never_reports :
    rfind ".a" '.' npos = 0 ∧
    (copy exChain).mChildrenMap.find (substr ".a" 0 0) = none ∧
    ∀ fuel : Nat, getNodeLoop (copy exChain).mChildrenMap ".a" fuel npos = none :=
  ⟨by decide, by decide,
   fun fuel =>
     getNodeLoop_stuck (copy exChain).mChildrenMap ".a" (by decide) (by decide) fuel⟩

/-! ## Dotted paths -/

theorem intercalate_go_data (acc s : String) (l : List String) :
    (String.intercalate.go acc s l).data
      = acc.data ++ (l.map (fun a => s.data ++ a.data)).flatten := by
  induction l generalizing acc with
  | nil => simp [String.intercalate.go]
  | cons a l ih =>
    rw [String.intercalate.go, ih]
    simp [String.data_append]

theorem dotted_cons_data (a : String) (l : List String) :
    (dotted (a :: l)).data = a.data ++ (l.map (fun b => '.' :: b.data)).flatten := by
  unfold dotted
  rw [String.intercalate, intercalate_go_data]
  rfl

theorem dotted_singleton (a : String) : dotted [a] = a := by
  apply String.ext
  rw [dotted_cons_data]
  simp

theorem dotted_cons_cons (a b : String) (l : List String) :
    dotted (a :: b :: l) = a.push '.' ++ dotted (b :: l) := by
  apply String.ext
  rw [String.data_append, dotted_cons_data, dotted_cons_data]
  simp [String.push]

theorem intersperse_flatten (sep a : List Char) (l : List (List Char)) :
    ((a :: l).intersperse sep).flatten = a ++ (l.map (fun b => sep ++ b)).flatten := by
  induction l generalizing a with
  | nil => simp
  | cons b l ih =>
    rw [List.intersperse_cons₂]
    simp only [List.flatten_cons, List.map_cons]
    rw [ih]
    simp

theorem dotted_data (ids : List String) (h : ids ≠ []) :
    (dotted ids).data = List.intercalate ['.'] (ids.map String.data) := by
  cases ids with
  | nil => exact absurd rfl h
  | cons a l =>
    rw [dotted_cons_data, List.intercalate, List.map_cons, intersperse_flatten]
    simp [List.map_map, Function.comp_def]

theorem splitDots_dotted (ids : List String) (h : ids ≠ [])
    (hdot : ∀ s ∈ ids, '.' ∉ s.data) : splitDots (dotted ids) = ids := by
  unfold splitDots
  rw [dotted_data ids h, List.splitOn_intercalate]
  · simp [List.map_map, Function.comp_def]
  · intro l hl
    obtain ⟨s, hs, rfl⟩ := List.mem_map.1 hl
    exact hdot s hs
  · simpa using h

/-! ## The map built by the copy constructor -/

/-- Induction over the tree: a property that holds of a node as soon as it
holds of its children holds of every node. -/
theorem Node.induct {P : Node → Prop} (h : ∀ n, (∀ c ∈ n.mChildren, P c) → P n) :
    ∀ n, P n := by
  intro n
  refine @Node.rec P (fun l => ∀ c ∈ l, P c) ?_ ?_ ?_ n
  · intro hw uid pa a mk pe mo sz tg de md pr cs mp ih
    exact h _ ih
  · intro c hc
    cases hc
  · intro c cs hc hcs c' hc'
    rcases List.mem_cons.1 hc' with rfl | h'
    · exact hc
    · exact hcs c' h'

theorem mem_insert (m : ChildrenMap) (k : String) (p : NodePtr) (e : String × NodePtr)
    (h : e ∈ m.insert k p) : e ∈ m ∨ e = (k, p) := by
  unfold ChildrenMap.insert at h
  split at h
  · exact Or.inl h
  · simpa using h

theorem keys_insert (m : ChildrenMap) (k : String) (p : NodePtr) (k' : String) :
    k' ∈ (m.insert k p).keys ↔ k' ∈ m.keys ∨ k' = k := by
  unfold ChildrenMap.insert
  split
  · rename_i q hq
    have hk : k ∈ m.keys := (mem_keys_iff_find m k).2 ⟨q, hq⟩
    constructor
    · exact Or.inl
    · rintro (h | rfl)
      · exact h
      · exact hk
  · simp [ChildrenMap.keys]

theorem mem_foldl_insert (u : String) (i : Nat) (l m : ChildrenMap) (e : String × NodePtr)
    (h : e ∈ l.foldl (fun acc x => acc.insert (u.push '.' ++ x.1) (i :: x.2)) m) :
    e ∈ m ∨ ∃ x ∈ l, e = (u.push '.' ++ x.1, i :: x.2) := by
  induction l generalizing m with
  | nil => exact Or.inl h
  | cons x l ih =>
    rw [List.foldl_cons] at h
    rcases ih _ h with h1 | ⟨y, hy, rfl⟩
    · rcases mem_insert _ _ _ _ h1 with h2 | rfl
      · exact Or.inl h2
      · exact Or.inr ⟨x, List.mem_cons_self _ _, rfl⟩
    · exact Or.inr ⟨y, List.mem_cons_of_mem _ hy, rfl⟩

theorem keys_foldl_insert (u : String) (i : Nat) (l m : ChildrenMap) (k : String) :
    k ∈ (l.foldl (fun acc x => acc.insert (u.push '.' ++ x.1) (i :: x.2)) m).keys ↔
      k ∈ m.keys ∨ ∃ k' ∈ l.keys, k = u.push '.' ++ k' := by
  induction l generalizing m with
  | nil => simp [ChildrenMap.keys]
  | cons x l ih =>
    rw [List.foldl_cons, ih, keys_insert]
    simp only [ChildrenMap.keys, List.map_cons, List.mem_cons, exists_eq_or_imp]
    tauto

theorem mem_indexChild (m : ChildrenMap) (i : Nat) (c : Node) (e : String × NodePtr)
    (h : e ∈ indexChild m i c) :
    e ∈ m ∨ e = (c.mUid, [i]) ∨
      ∃ x ∈ c.mChildrenMap, e = (c.mUid.push '.' ++ x.1, i :: x.2) := by
  unfold indexChild at h
  rcases mem_foldl_insert _ _ _ _ _ h with h1 | h1
  · rcases mem_insert _ _ _ _ h1 with h2 | h2
    · exact Or.inl h2
    · exact Or.inr (Or.inl h2)
  · exact Or.inr (Or.inr h1)

theorem keys_indexChild (m : ChildrenMap) (i : Nat) (c : Node) (k : String) :
    k ∈ (indexChild m i c).keys ↔
      k ∈ m.keys ∨ k = c.mUid ∨ ∃ k' ∈ c.mChildrenMap.keys, k = c.mUid.push '.' ++ k' := by
  unfold indexChild
  rw [keys_foldl_insert, keys_insert]
  tauto

theorem mem_indexChildren (cs : List Node) (i : Nat) (m : ChildrenMap)
    (e : String × NodePtr) (h : e ∈ indexChildren cs i m) :
    e ∈ m ∨ ∃ j c, cs[j]? = some c ∧
      (e = (c.mUid, [i + j]) ∨
        ∃ x ∈ c.mChildrenMap, e = (c.mUid.push '.' ++ x.1, (i + j) :: x.2)) := by
  induction cs generalizing i m with
  | nil => exact Or.inl h
  | cons c cs ih =>
    rw [indexChildren] at h
    rcases ih _ _ h with h1 | ⟨j, c', hj, h2⟩
    · rcases mem_indexChild _ _ _ _ h1 with h3 | h3
      · exact Or.inl h3
      · exact Or.inr ⟨0, c, by simp, by simpa using h3⟩
    · refine Or.inr ⟨j + 1, c', by simpa using hj, ?_⟩
      have e1 : i + (j + 1) = i + 1 + j := by omega
      rw [e1]
      exact h2

theorem keys_indexChildren (cs : List Node) (i : Nat) (m : ChildrenMap) (k : String) :
    k ∈ (indexChildren cs i m).keys ↔
      k ∈ m.keys ∨ ∃ c ∈ cs,
        (k = c.mUid ∨ ∃ k' ∈ c.mChildrenMap.keys, k = c.mUid.push '.' ++ k') := by
  induction cs generalizing i m with
  | nil => simp [indexChildren]
  | cons c cs ih =>
    rw [indexChildren, ih, keys_indexChild]
    constructor
    · rintro ((h | h) | ⟨c', hc', h⟩)
      · exact Or.inl h
      · exact Or.inr ⟨c, List.mem_cons_self _ _, h⟩
      · exact Or.inr ⟨c', List.mem_cons_of_mem _ hc', h⟩
    · rintro (h | ⟨c', hc', h⟩)
      · exact Or.inl (Or.inl h)
      · rcases List.mem_cons.1 hc' with rfl | hc''
        · exact Or.inl (Or.inr h)
        · exact Or.inr ⟨c', hc'', h⟩

/-! ## Pointers into a rebuilt tree -/

theorem mem_of_getElem?_eq_some {l : List Node} {i : Nat} {c : Node}
    (h : l[i]? = some c) : c ∈ l := by
  obtain ⟨hi, rfl⟩ := List.getElem?_eq_some.1 h
  exact List.getElem_mem _

theorem idsAlong_length (p : NodePtr) : ∀ (n : Node) (ids : List String),
    n.idsAlong p = some ids → ids.length = p.length := by
  induction p with
  | nil =>
    intro n ids h
    simp [Node.idsAlong] at h
    simp [← h]
  | cons i p ih =>
    intro n ids h
    rw [Node.idsAlong] at h
    cases hc : n.mChildren[i]? with
    | none => simp [hc] at h
    | some c =>
      simp only [hc, Option.map_eq_some'] at h
      obtain ⟨ids', h1, rfl⟩ := h
      simp [ih c ids' h1]

theorem idsAlong_cons (n : Node) (i : Nat) (p : NodePtr) (c : Node)
    (hc : n.mChildren[i]? = some c) :
    n.idsAlong (i :: p) = (c.idsAlong p).map (fun ids => c.mUid :: ids) := by
  rw [Node.idsAlong]
  simp only [hc]

theorem deref_cons (n : Node) (i : Nat) (p : NodePtr) (c : Node)
    (hc : n.mChildren[i]? = some c) : n.deref (i :: p) = c.deref p := by
  rw [Node.deref]
  simp only [hc]

theorem deref_append (q : NodePtr) : ∀ (R n : Node) (p : NodePtr),
    R.deref q = some n → R.deref (q ++ p) = n.deref p := by
  induction q with
  | nil =>
    intro R n p h
    simp only [Node.deref, Option.some.injEq] at h
    subst h
    rfl
  | cons i q ih =>
    intro R n p h
    rw [Node.deref] at h
    rw [List.cons_append, Node.deref]
    cases hc : R.mChildren[i]? with
    | none => simp [hc] at h
    | some c =>
      simp only [hc] at h ⊢
      exact ih c n p h

theorem rebuilt_child (n : Node) (h : Rebuilt n) (i : Nat) (c : Node)
    (hc : n.mChildren[i]? = some c) : Rebuilt c := by
  intro q x hx
  exact h (i :: q) x (by rw [deref_cons n i q c hc]; exact hx)

theorem rebuilt_deref (R : Node) (h : Rebuilt R) (q : NodePtr) (n : Node)
    (hq : R.deref q = some n) : Rebuilt n := by
  intro p x hx
  exact h (q ++ p) x (by rw [deref_append q R n p hq]; exact hx)

/-- The map built by the second loop of the copy constructor is sound and
complete at string level: every entry is the dotted path of the way to its
pointee, and every dotted path of a descendant is a key. -/
theorem rebuilt_index (n : Node) : Rebuilt n →
    (∀ k p, (k, p) ∈ n.mChildrenMap →
      ∃ ids, ids ≠ [] ∧ n.idsAlong p = some ids ∧ k = dotted ids) ∧
    (∀ p ids, p ≠ [] → n.idsAlong p = some ids → dotted ids ∈ n.mChildrenMap.keys) := by
  induction n using Node.induct with
  | h n ih =>
    intro hn
    have hmap : n.mChildrenMap = indexChildren n.mChildren 0 [] := hn [] n rfl
    constructor
    · intro k p hkp
      rw [hmap] at hkp
      rcases mem_indexChildren _ _ _ _ hkp with h0 | ⟨j, c, hj, h1⟩
      · cases h0
      · have hcmem : c ∈ n.mChildren := mem_of_getElem?_eq_some hj
        rcases h1 with h1 | ⟨x, hx, h1⟩
        · simp only [Prod.mk.injEq, Nat.zero_add] at h1
          obtain ⟨rfl, rfl⟩ := h1
          refine ⟨[c.mUid], by simp, ?_, (dotted_singleton _).symm⟩
          rw [idsAlong_cons n j [] c hj]
          rfl
        · simp only [Prod.mk.injEq, Nat.zero_add] at h1
          obtain ⟨rfl, rfl⟩ := h1
          obtain ⟨ids', hne, hids, hk'⟩ :=
            (ih c hcmem (rebuilt_child n hn j c hj)).1 x.1 x.2 hx
          refine ⟨c.mUid :: ids', by simp, ?_, ?_⟩
          · rw [idsAlong_cons n j x.2 c hj, hids]
            rfl
          · cases ids' with
            | nil => exact absurd rfl hne
            | cons b l => rw [dotted_cons_cons, hk']
    · intro p ids hp hids
      cases p with
      | nil => exact absurd rfl hp
      | cons j p' =>
        cases hj : n.mChildren[j]? with
        | none =>
          rw [Node.idsAlong] at hids
          simp [hj] at hids
        | some c =>
          have hcmem : c ∈ n.mChildren := mem_of_getElem?_eq_some hj
          rw [idsAlong_cons n j p' c hj] at hids
          simp only [Option.map_eq_some'] at hids
          obtain ⟨ids', hids', rfl⟩ := hids
          rw [hmap, keys_indexChildren]
          refine Or.inr ⟨c, hcmem, ?_⟩
          cases p' with
          | nil =>
            simp [Node.idsAlong] at hids'
            subst hids'
            exact Or.inl (dotted_singleton _)
          | cons j' p'' =>
            have hlen := idsAlong_length _ c ids' hids'
            have hk := (ih c hcmem (rebuilt_child n hn j c hj)).2 (j' :: p'') ids'
              (by simp) hids'
            cases ids' with
            | nil => simp at hlen
            | cons b l => exact Or.inr ⟨_, hk, dotted_cons_cons _ _ _⟩

theorem rebuilt_indexedByPaths (n : Node) (h : Rebuilt n) : IndexedByPaths n := by
  intro k
  have hr := rebuilt_index n h
  constructor
  · intro hk
    obtain ⟨⟨k', p⟩, hmem, rfl⟩ := List.mem_map.1 hk
    obtain ⟨ids, hne, hids, hk'⟩ := hr.1 k' p hmem
    refine ⟨p, ids, ?_, hids, hk'⟩
    rintro rfl
    simp only [Node.idsAlong, Option.some.injEq] at hids
    exact hne hids.symm
  · rintro ⟨p, ids, hp, hids, rfl⟩
    exact hr.2 p ids hp hids

/-! ## The copying operations rebuild the map at every node -/

theorem copyChildren_eq_map (cs : List Node) : copyChildren cs = cs.map copy := by
  induction cs with
  | nil => simp [copyChildren]
  | cons c cs ih => simp [copyChildren, ih]

theorem copy_mChildren (n : Node) : (copy n).mChildren = n.mChildren.map copy := by
  cases n
  simp [copy, copyChildren_eq_map]

theorem copy_mChildrenMap (n : Node) :
    (copy n).mChildrenMap = indexChildren (copy n).mChildren 0 [] := by
  cases n
  simp [copy]

theorem copy_mUid (n : Node) : (copy n).mUid = n.mUid := by
  cases n
  simp [copy]

theorem deref_copy (q : NodePtr) : ∀ T : Node, (copy T).deref q = (T.deref q).map copy := by
  induction q with
  | nil => intro T; simp [Node.deref]
  | cons i q ih =>
    intro T
    rw [Node.deref, Node.deref, copy_mChildren, List.getElem?_map]
    cases T.mChildren[i]? with
    | none => rfl
    | some c => exact ih c

theorem idsAlong_copy (p : NodePtr) : ∀ n : Node, (copy n).idsAlong p = n.idsAlong p := by
  induction p with
  | nil => intro n; simp [Node.idsAlong]
  | cons i p ih =>
    intro n
    rw [Node.idsAlong, Node.idsAlong, copy_mChildren, List.getElem?_map]
    cases n.mChildren[i]? with
    | none => rfl
    | some c => simp [ih c, copy_mUid]

theorem rebuilt_copy (T : Node) : Rebuilt (copy T) := by
  intro q n hq
  rw [deref_copy] at hq
  simp only [Option.map_eq_some'] at hq
  obtain ⟨m, _, rfl⟩ := hq
  exact copy_mChildrenMap m

theorem rebuilt_assign (self : Node) (aNode : Option Node) : Rebuilt (assign self aNode) := by
  intro q n hq
  cases q with
  | nil =>
    simp only [Node.deref, Option.some.injEq] at hq
    subst hq
    rfl
  | cons i q =>
    rw [Node.deref] at hq
    have hch : (assign self aNode).mChildren
        = (aNode.getD { self with mChildren := [], mChildrenMap := [] }).mChildren.map copy := by
      cases aNode <;> simp [assign, copyChildren_eq_map, copyChildren]
    rw [hch, List.getElem?_map] at hq
    cases hx : (aNode.getD { self with mChildren := [], mChildrenMap := [] }).mChildren[i]? with
    | none => simp [hx] at hq
    | some x =>
      simp only [hx, Option.map_some'] at hq
      exact rebuilt_copy x q n hq

theorem rebuilt_of_produced (R : Node) (h : Produced R) : Rebuilt R := by
  cases h with
  | copy T => exact rebuilt_copy T
  | clone T => exact rebuilt_copy T
  | assign self aNode => exact rebuilt_assign self aNode

/-! ## Ids below a node -/

theorem descendantIds_eq (n : Node) : descendantIds n = descendantIdsOf n.mChildren := by
  cases n
  simp [descendantIds]

theorem descendantIdsOf_mem (cs : List Node) (c : Node) (hc : c ∈ cs) :
    c.mUid ∈ descendantIdsOf cs ∧ ∀ s ∈ descendantIds c, s ∈ descendantIdsOf cs := by
  induction cs with
  | nil => cases hc
  | cons c' cs ih =>
    rw [descendantIdsOf]
    rcases List.mem_cons.1 hc with rfl | h
    · exact ⟨List.mem_cons_self _ _, fun s hs =>
        List.mem_cons_of_mem _ (List.mem_append_left _ hs)⟩
    · exact ⟨List.mem_cons_of_mem _ (List.mem_append_right _ (ih h).1), fun s hs =>
        List.mem_cons_of_mem _ (List.mem_append_right _ ((ih h).2 s hs))⟩

theorem idsAlong_descendantIds (p : NodePtr) : ∀ (n : Node) (ids : List String),
    n.idsAlong p = some ids → ∀ s ∈ ids, s ∈ descendantIds n := by
  induction p with
  | nil =>
    intro n ids h s hs
    simp only [Node.idsAlong, Option.some.injEq] at h
    subst h
    cases hs
  | cons i p ih =>
    intro n ids h s hs
    cases hc : n.mChildren[i]? with
    | none =>
      rw [Node.idsAlong] at h
      simp [hc] at h
    | some c =>
      rw [idsAlong_cons n i p c hc] at h
      simp only [Option.map_eq_some'] at h
      obtain ⟨ids', h', rfl⟩ := h
      have hm := descendantIdsOf_mem n.mChildren c (mem_of_getElem?_eq_some hc)
      rw [descendantIds_eq]
      rcases List.mem_cons.1 hs with rfl | hs'
      · exact hm.1
      · exact hm.2 s (ih c ids' h' s hs')

theorem deref_descendantIds (q : NodePtr) : ∀ (R n : Node),
    R.deref q = some n → ∀ s ∈ descendantIds n, s ∈ descendantIds R := by
  induction q with
  | nil =>
    intro R n h s hs
    simp only [Node.deref, Option.some.injEq] at h
    subst h
    exact hs
  | cons i q ih =>
    intro R n h s hs
    cases hc : R.mChildren[i]? with
    | none =>
      rw [Node.deref] at h
      simp [hc] at h
    | some c =>
      rw [deref_cons R i q c hc] at h
      rw [descendantIds_eq]
      exact (descendantIdsOf_mem R.mChildren c (mem_of_getElem?_eq_some hc)).2 s
        (ih c n h s hs)

/-! ## C7 – C9: clone and the descendant index -/

/-- C7 — Deep-clone round trip. For every tree `T` and every node `n` of it,
at position `q`, `clone(T)` has a node at the same position with the same
hardware pointer, id, partial address, address, mask, permission, mode,
size, tags, description, module and parameters, whose children are the
clones of the children of `n` in the same order; and its map has the same
key set as the map of `n` whenever the keys of the latter are the dotted
paths of the descendants of `n`, as the data model defines the index. -/
theorem clone_round_trip (T : Node) (q : NodePtr) (n : Node) (hq : T.deref q = some n) :
    ∃ n', (clone T).deref q = some n' ∧
      n'.mHw = n.mHw ∧ n'.mUid = n.mUid ∧ n'.mPartialAddr = n.mPartialAddr ∧
      n'.mAddr = n.mAddr ∧ n'.mMask = n.mMask ∧ n'.mPermission = n.mPermission ∧
      n'.mMode = n.mMode ∧ n'.mSize = n.mSize ∧ n'.mTags = n.mTags ∧
      n'.mDescription = n.mDescription ∧ n'.mModule = n.mModule ∧
      n'.mParameters = n.mParameters ∧
      n'.mChildren = n.mChildren.map clone ∧
      (IndexedByPaths n → ∀ k, k ∈ n'.mChildrenMap.keys ↔ k ∈ n.mChildrenMap.keys) := by
  refine ⟨copy n, ?_, ?_⟩
  · show (copy T).deref q = some (copy n)
    rw [deref_copy, hq]
    rfl
  · have hkeys : IndexedByPaths n →
        ∀ k, k ∈ (copy n).mChildrenMap.keys ↔ k ∈ n.mChildrenMap.keys := by
      intro hI k
      rw [hI k, rebuilt_indexedByPaths (copy n) (rebuilt_copy n) k]
      simp only [idsAlong_copy]
    have hch : (copy n).mChildren = n.mChildren.map clone := copy_mChildren n
    cases n
    exact ⟨rfl, rfl, rfl, rfl, rfl, rfl, rfl, rfl, rfl, rfl, rfl, rfl, hch, hkeys⟩

/-- Witness of C7 at the node `a` of a copy of the chain `a.b.c`. -/
theorem clone_round_trip_witness :
    (copy exChain).deref [0] = some (copy exChainA) ∧
    IndexedByPaths (copy exChainA) ∧
    ∃ n', (clone (copy exChain)).deref [0] = some n' ∧ n'.mUid = "a" ∧
      n'.mChildren = (copy exChainA).mChildren.map clone ∧
      ∀ k, k ∈ n'.mChildrenMap.keys ↔ k ∈ (copy exChainA).mChildrenMap.keys := by
  have hI : IndexedByPaths (copy exChainA) :=
    rebuilt_indexedByPaths _ (rebuilt_copy exChainA)
  obtain ⟨n', h⟩ := clone_round_trip (copy exChain) [0] (copy exChainA) rfl
  exact ⟨rfl, hI, n', h.1, h.2.2.1, h.2.2.2.2.2.2.2.2.2.2.2.2.2.1,
    h.2.2.2.2.2.2.2.2.2.2.2.2.2.2 hI⟩

theorem distinctSiblings_eq (n : Node) :
    distinctSiblings n
      = (decide ((n.mChildren.map Node.mUid).Nodup) && distinctSiblingsAll n.mChildren) := by
  cases n
  simp [distinctSiblings]

theorem distinctSiblingsAll_mem (cs : List Node) (h : distinctSiblingsAll cs = true)
    (c : Node) (hc : c ∈ cs) : distinctSiblings c = true := by
  induction cs with
  | nil => cases hc
  | cons c' cs ih =>
    rw [distinctSiblingsAll, Bool.and_eq_true] at h
    rcases List.mem_cons.1 hc with rfl | h'
    · exact h.1
    · exact ih h.2 h'

theorem distinctSiblings_child (n : Node) (h : distinctSiblings n = true) (i : Nat)
    (c : Node) (hc : n.mChildren[i]? = some c) :
    (n.mChildren.map Node.mUid).Nodup ∧ distinctSiblings c = true := by
  rw [distinctSiblings_eq, Bool.and_eq_true] at h
  exact ⟨of_decide_eq_true h.1,
    distinctSiblingsAll_mem _ h.2 c (mem_of_getElem?_eq_some hc)⟩

theorem firstWithId_of_nodup (cs : List Node) (h : (cs.map Node.mUid).Nodup) :
    ∀ (i : Nat) (c : Node), cs[i]? = some c → firstWithId cs c.mUid = some (i, c) := by
  induction cs with
  | nil => intro i c hc; simp at hc
  | cons c' cs ih =>
    intro i c hc
    rw [List.map_cons, List.nodup_cons] at h
    cases i with
    | zero =>
      simp only [List.getElem?_cons_zero, Option.some.injEq] at hc
      subst hc
      rw [firstWithId, if_pos rfl]
    | succ j =>
      rw [List.getElem?_cons_succ] at hc
      have hne : c'.mUid ≠ c.mUid := by
        intro heq
        apply h.1
        rw [heq]
        exact List.mem_map.2 ⟨c, mem_of_getElem?_eq_some hc, rfl⟩
      rw [firstWithId, if_neg hne, ih h.2 j c hc]
      rfl

theorem descend_of_idsAlong (p : NodePtr) : ∀ (n : Node) (ids : List String),
    distinctSiblings n = true → n.idsAlong p = some ids → n.descend ids = some p := by
  induction p with
  | nil =>
    intro n ids _ h
    simp only [Node.idsAlong, Option.some.injEq] at h
    subst h
    rfl
  | cons i p ih =>
    intro n ids hd h
    cases hc : n.mChildren[i]? with
    | none =>
      rw [Node.idsAlong] at h
      simp [hc] at h
    | some c =>
      rw [idsAlong_cons n i p c hc] at h
      simp only [Option.map_eq_some'] at h
      obtain ⟨ids', h', rfl⟩ := h
      obtain ⟨hnd, hdc⟩ := distinctSiblings_child n hd i c hc
      rw [Node.descend, firstWithId_of_nodup n.mChildren hnd i c hc]
      simp only [ih c ids' hdc h', Option.map_some']

theorem distinctSiblings_deref (q : NodePtr) : ∀ (R n : Node),
    distinctSiblings R = true → R.deref q = some n → distinctSiblings n = true := by
  induction q with
  | nil =>
    intro R n h hq
    simp only [Node.deref, Option.some.injEq] at hq
    subst hq
    exact h
  | cons i q ih =>
    intro R n h hq
    cases hc : R.mChildren[i]? with
    | none =>
      rw [Node.deref] at hq
      simp [hc] at hq
    | some c =>
      rw [deref_cons R i q c hc] at hq
      exact ih c n (distinctSiblings_child R h i c hc).2 hq

/-- In a tree made by the copying operations whose ids have no `'.'`, the ids
met on the way from a node to the pointee of an entry of its map are the
segments of the key. -/
theorem index_entry_ids (R : Node) (hR : Produced R)
    (hdot : ∀ s ∈ descendantIds R, '.' ∉ s.data)
    (q : NodePtr) (n : Node) (hq : R.deref q = some n)
    (k : String) (p : NodePtr) (he : (k, p) ∈ n.mChildrenMap) :
    n.idsAlong p = some (splitDots k) := by
  have hr := rebuilt_index n (rebuilt_deref R (rebuilt_of_produced R hR) q n hq)
  obtain ⟨ids, hne, hids, rfl⟩ := hr.1 k p he
  rw [hids, splitDots_dotted ids hne]
  intro s hs
  exact hdot s (deref_descendantIds q R n hq s (idsAlong_descendantIds p n ids hids s hs))

/-- C8 as stated fails in two ways. On the copy of a root whose only child
has the id `a.b`, the map holds `a.b ↦ child 0`, the path splits into `a`
and `b`, and the root has no child `a`. On the copy of a root with two
children `a`, the second with a child `b` (no dots, but a repeated id), the
map holds `a.b ↦ [1, 0]`, while the descent takes the first child `a`, which
has no child `b`. -/
theorem index_soundness_fails_for_dotted_or_repeated_id :
    (Produced (copy exDotted) ∧
     (copy exDotted).deref [] = some (copy exDotted) ∧
     distinctSiblings (copy exDotted) = true ∧
     ("a.b", [0]) ∈ (copy exDotted).mChildrenMap ∧
     splitDots "a.b" = ["a", "b"] ∧
     (copy exDotted).descend (splitDots "a.b") = none) ∧
    (Produced (copy exRepeated) ∧
     (copy exRepeated).deref [] = some (copy exRepeated) ∧
     (∀ s ∈ descendantIds (copy exRepeated), '.' ∉ s.data) ∧
     ("a.b", [1, 0]) ∈ (copy exRepeated).mChildrenMap ∧
     (copy exRepeated).descend (splitDots "a.b") = none ∧
     (copy exRepeated).descend (splitDots "a.b") ≠ some [1, 0]) :=
  ⟨⟨Produced.copy _, rfl, by decide, by decide, by decide, by decide⟩,
   ⟨Produced.copy _, rfl, by decide, by decide, by decide, by decide⟩⟩

/-- C8, amended — Index soundness. In every tree produced by the copy
constructor, `clone` or `operator=` in which no id below the root contains a
`'.'` and no two children of one node have the same id, for every node `n`
and every entry `(path, child)` of its map, splitting `path` at `'.'` and
descending from `n` through the child with each segment's id in turn reaches
exactly `child`. -/
theorem index_soundness (R : Node) (hR : Produced R)
    (hdot : ∀ s ∈ descendantIds R, '.' ∉ s.data)
    (hsib : distinctSiblings R = true)
    (q : NodePtr) (n : Node) (hq : R.deref q = some n)
    (k : String) (p : NodePtr) (he : (k, p) ∈ n.mChildrenMap) :
    n.descend (splitDots k) = some p :=
  descend_of_idsAlong p n (splitDots k) (distinctSiblings_deref q R n hsib hq)
    (index_entry_ids R hR hdot q n hq k p he)

/-- Witness of C8 (amended) at the node `a` of the copy of the chain
`a.b.c` and its entry `b.c ↦ [0, 0]`. -/
theorem index_soundness_witness :
    Produced (copy exChain) ∧
    (∀ s ∈ descendantIds (copy exChain), '.' ∉ s.data) ∧
    distinctSiblings (copy exChain) = true ∧
    (copy exChain).deref [0] = some (copy exChainA) ∧
    ("b.c", [0, 0]) ∈ (copy exChainA).mChildrenMap ∧
    splitDots "b.c" = ["b", "c"] ∧
    (copy exChainA).descend (splitDots "b.c") = some [0, 0] :=
  ⟨Produced.copy _, by decide, by decide, rfl, by decide, by decide,
   index_soundness (copy exChain) (Produced.copy _) (by decide) (by decide) [0]
     (copy exChainA) rfl "b.c" [0, 0] (by decide)⟩

/-- C9 — Index completeness. In every tree produced by the copy constructor,
`clone` or `operator=`, for every node `n` and every descendant reached
through children with ids `c1, ..., ck` (`k ≥ 1`), the string `c1.c2. ... .ck`
is a key of the map of `n`; and every key of that map is the dotted path of
some descendant of `n`. -/
theorem index_completeness (R : Node) (hR : Produced R) (q : NodePtr) (n : Node)
    (hq : R.deref q = some n) :
    (∀ p ids, p ≠ [] → n.idsAlong p = some ids → dotted ids ∈ n.mChildrenMap.keys) ∧
    (∀ k ∈ n.mChildrenMap.keys,
      ∃ p ids, p ≠ [] ∧ n.idsAlong p = some ids ∧ k = dotted ids) := by
  have hn : Rebuilt n := rebuilt_deref R (rebuilt_of_produced R hR) q n hq
  exact ⟨(rebuilt_index n hn).2, fun k hk => (rebuilt_indexedByPaths n hn k).1 hk⟩

/-- Witness of C9 at the node `a` of the tree left by assigning the chain
`a.b.c` to another node: `b.c` is a key, and it is the path of a descendant. -/
theorem index_completeness_witness :
    Produced (assign exOneChild (some exChain)) ∧
    (assign exOneChild (some exChain)).deref [0] = some (copy exChainA) ∧
    "b.c" ∈ (copy exChainA).mChildrenMap.keys ∧
    ∃ p ids, p ≠ [] ∧ (copy exChainA).idsAlong p = some ids ∧ "b.c" = dotted ids :=
  ⟨Produced.assign _ _, rfl,
   (index_completeness _ (Produced.assign exOneChild (some exChain)) [0] (copy exChainA) rfl).1
     [0, 0] ["b", "c"] (by decide) rfl,
   (index_completeness _ (Produced.assign exOneChild (some exChain)) [0] (copy exChainA) rfl).2
     "b.c" (by decide)⟩

/-! ## The diagnostic loop of `getNode` in general -/

theorem npos_eq : npos = 18446744073709551615 := by
  unfold npos
  norm_num

theorem rfindFrom_spec (l : List Char) (c : Char) (s : Nat) :
    (rfindFrom l c s = npos ∧ ∀ j, j ≤ s → l[j]? ≠ some c) ∨
    (∃ i, rfindFrom l c s = i ∧ i ≤ s ∧ l[i]? = some c ∧
      ∀ j, i < j → j ≤ s → l[j]? ≠ some c) := by
  induction s with
  | zero =>
    rw [rfindFrom]
    by_cases h : l[0]? = some c
    · rw [if_pos h]
      exact Or.inr ⟨0, rfl, Nat.le_refl _, h, fun j h1 h2 => by omega⟩
    · rw [if_neg h]
      refine Or.inl ⟨rfl, fun j hj => ?_⟩
      have : j = 0 := by omega
      subst this
      exact h
  | succ s ih =>
    rw [rfindFrom]
    by_cases h : l[s + 1]? = some c
    · rw [if_pos h]
      exact Or.inr ⟨s + 1, rfl, Nat.le_refl _, h, fun j h1 h2 => by omega⟩
    · rw [if_neg h]
      rcases ih with ⟨h1, h2⟩ | ⟨i, h1, h2, h3, h4⟩
      · refine Or.inl ⟨h1, fun j hj => ?_⟩
        by_cases hjs : j = s + 1
        · subst hjs; exact h
        · exact h2 j (by omega)
      · refine Or.inr ⟨i, h1, by omega, h3, fun j hj1 hj2 => ?_⟩
        by_cases hjs : j = s + 1
        · subst hjs; exact h
        · exact h4 j hj1 (by omega)

theorem rfind_spec (aId : String) (c : Char) (lPos : Nat) (hlen : aId.length ≤ npos) :
    (rfind aId c lPos = npos ∧ ∀ j, j ≤ lPos → aId.data[j]? ≠ some c) ∨
    (∃ i, rfind aId c lPos = i ∧ i ≠ npos ∧ i ≤ lPos ∧ i < aId.length ∧
      aId.data[i]? = some c ∧ ∀ j, i < j → j ≤ lPos → aId.data[j]? ≠ some c) := by
  have hl : aId.length = aId.data.length := rfl
  unfold rfind
  by_cases h0 : aId.length = 0
  · rw [if_pos h0]
    refine Or.inl ⟨rfl, fun j _ => ?_⟩
    have : aId.data = [] := List.length_eq_zero.1 h0
    simp [this]
  · rw [if_neg h0]
    have hout : ∀ j, aId.length - 1 < j → aId.data[j]? ≠ some c := by
      intro j hj
      have : aId.data[j]? = none := List.getElem?_eq_none (by omega)
      simp [this]
    rcases rfindFrom_spec aId.data c (min (aId.length - 1) lPos) with
      ⟨h1, h2⟩ | ⟨i, h1, h2, h3, h4⟩
    · refine Or.inl ⟨h1, fun j hj => ?_⟩
      by_cases hj' : j ≤ aId.length - 1
      · exact h2 j (by omega)
      · exact hout j (by omega)
    · have hi : i < aId.length := by
        by_contra hge
        have : aId.data[i]? = none := List.getElem?_eq_none (by omega)
        simp [this] at h3
      refine Or.inr ⟨i, h1, by omega, by omega, hi, h3, fun j hj1 hj2 => ?_⟩
      by_cases hj' : j ≤ aId.length - 1
      · exact h4 j hj1 (by omega)
      · exact hout j (by omega)

theorem dec_wrap (i : Nat) (h : i < 2 ^ 64) :
    (i + (2 ^ 64 - 1)) % 2 ^ 64 = if i = 0 then npos else i - 1 := by
  have e : (2 : Nat) ^ 64 = 18446744073709551616 := by norm_num
  rw [npos_eq]
  rw [e] at h ⊢
  split <;> omega

/-- What the loop of `getNode` reports is right whenever it reports: a
reported prefix ends just before a `'.'` of the path, is a key with the
reported pointer, and no longer such prefix is a key; "not even a partial
match" is reported only when no such prefix is a key. -/
theorem getNodeLoop_sound (m : ChildrenMap) (aId : String) (hlen : aId.length ≤ npos)
    (fuel : Nat) : ∀ (lPos : Nat) (r : Option (String × NodePtr)),
    (∀ j, lPos < j → aId.data[j]? = some '.' → m.find (substr aId 0 j) = none) →
    getNodeLoop m aId fuel lPos = some r →
    match r with
    | some (pre, p) =>
      ∃ i, i < aId.length ∧ aId.data[i]? = some '.' ∧ pre = substr aId 0 i ∧
        m.find pre = some p ∧
        ∀ j, i < j → aId.data[j]? = some '.' → m.find (substr aId 0 j) = none
    | none => ∀ j, aId.data[j]? = some '.' → m.find (substr aId 0 j) = none := by
  induction fuel with
  | zero =>
    intro lPos r _ h
    simp [getNodeLoop] at h
  | succ fuel ih =>
    intro lPos r hinv h
    rw [getNodeLoop] at h
    rcases rfind_spec aId '.' lPos hlen with ⟨h1, h2⟩ | ⟨i, h1, hne, hle, hlt, hdot, hbetween⟩
    · simp only [h1, if_true, Option.some.injEq] at h
      subst h
      intro j hj
      by_cases hjl : j ≤ lPos
      · exact absurd hj (h2 j hjl)
      · exact hinv j (by omega) hj
    · have hinv' : ∀ j, i < j → aId.data[j]? = some '.' →
          m.find (substr aId 0 j) = none := by
        intro j hij hj
        by_cases hjl : j ≤ lPos
        · exact absurd hj (hbetween j hij hjl)
        · exact hinv j (by omega) hj
      simp only [h1, if_neg hne] at h
      cases hf : m.find (substr aId 0 i) with
      | some p =>
        simp only [hf, Option.some.injEq] at h
        subst h
        exact ⟨i, hlt, hdot, rfl, hf, hinv'⟩
      | none =>
        simp only [hf] at h
        refine ih _ r ?_ h
        have hi64 : i < 2 ^ 64 := by
          have e : (2 : Nat) ^ 64 = 18446744073709551616 := by norm_num
          rw [npos_eq] at hlen
          omega
        rw [dec_wrap i hi64]
        intro j hj hjdot
        by_cases hi0 : i = 0
        · rw [if_pos hi0] at hj
          have : aId.data[j]? = none :=
            List.getElem?_eq_none (by
              have hl : aId.length = aId.data.length := rfl
              omega)
          simp [this] at hjdot
        · rw [if_neg hi0] at hj
          by_cases hji : j = i
          · subst hji; exact hf
          · exact hinv' j (by omega) hjdot

/-- When the path does not begin with a `'.'`, the loop ends: fuel
`lPos' + 2` is enough, `lPos'` being the position the search starts from. -/
theorem getNodeLoop_terminates (m : ChildrenMap) (aId : String) (hlen : aId.length ≤ npos)
    (h0 : aId.data[0]? ≠ some '.') (fuel : Nat) : ∀ lPos : Nat,
    min (aId.length - 1) lPos + 2 ≤ fuel → ∃ r, getNodeLoop m aId fuel lPos = some r := by
  induction fuel with
  | zero => intro lPos h; omega
  | succ fuel ih =>
    intro lPos hfuel
    rw [getNodeLoop]
    rcases rfind_spec aId '.' lPos hlen with ⟨h1, _⟩ | ⟨i, h1, hne, hle, hlt, hdot, _⟩
    · exact ⟨none, by simp only [h1, if_true]⟩
    · simp only [h1, if_neg hne]
      cases hf : m.find (substr aId 0 i) with
      | some p => exact ⟨_, rfl⟩
      | none =>
        have hi0 : i ≠ 0 := by
          rintro rfl
          exact h0 hdot
        have hi64 : i < 2 ^ 64 := by
          have e : (2 : Nat) ^ 64 = 18446744073709551616 := by norm_num
          rw [npos_eq] at hlen
          omega
        simp only [dec_wrap i hi64, if_neg hi0]
        exact ih (i - 1) (by omega)

/-- When the path begins with a `'.'` and no prefix that ends before a `'.'`
is a key, the loop never ends: every search finds a `'.'`, at position 0 at
the latest, and `lPos--` at 0 wraps around to `npos`. -/
theorem getNodeLoop_diverges (m : ChildrenMap) (aId : String) (hlen : aId.length ≤ npos)
    (h0 : aId.data[0]? = some '.')
    (hno : ∀ j, aId.data[j]? = some '.' → m.find (substr aId 0 j) = none)
    (fuel : Nat) : ∀ lPos : Nat, getNodeLoop m aId fuel lPos = none := by
  induction fuel with
  | zero => intro lPos; rfl
  | succ fuel ih =>
    intro lPos
    rw [getNodeLoop]
    rcases rfind_spec aId '.' lPos hlen with ⟨_, h2⟩ | ⟨i, h1, hne, _, _, hdot, _⟩
    · exact absurd h0 (h2 0 (Nat.zero_le _))
    · simp only [h1, if_neg hne, hno i hdot]
      exact ih _

/-- A miss on a path that does not begin with a `'.'` throws
`NoBranchFoundWithGivenUID`, with fuel `size + 1`, and what the exception
reports is the longest prefix ending before a `'.'` that is a key, or
"not even a partial match" when there is none. -/
theorem getNode_miss_throws (n : Node) (aId : String) (hlen : aId.length ≤ npos)
    (hne : aId ≠ "") (hk : aId ∉ n.mChildrenMap.keys) (h0 : aId.data[0]? ≠ some '.') :
    ∃ d, getNode (aId.length + 1) n aId = some (.thrown (.NoBranchFoundWithGivenUID d)) ∧
      match d with
      | some (pre, p) =>
        ∃ i, i < aId.length ∧ aId.data[i]? = some '.' ∧ pre = substr aId 0 i ∧
          n.mChildrenMap.find pre = some p ∧
          ∀ j, i < j → aId.data[j]? = some '.' →
            n.mChildrenMap.find (substr aId 0 j) = none
      | none =>
        ∀ j, aId.data[j]? = some '.' → n.mChildrenMap.find (substr aId 0 j) = none := by
  obtain ⟨d, hd⟩ := getNodeLoop_terminates n.mChildrenMap aId hlen h0 (aId.length + 1) npos
    (by
      have := length_ne_zero_of_ne_empty aId hne
      omega)
  refine ⟨d, ?_, ?_⟩
  · unfold Node.getNode
    rw [if_neg (length_ne_zero_of_ne_empty aId hne), (not_mem_keys_iff_find _ _).1 hk, hd]
    rfl
  · refine getNodeLoop_sound n.mChildrenMap aId hlen _ npos d ?_ hd
    intro j hj hjdot
    have : aId.data[j]? = none :=
      List.getElem?_eq_none (by
        have hl : aId.length = aId.data.length := rfl
        omega)
    simp [this] at hjdot

/-! ## No key occurs twice -/

theorem keys_nodup_insert (m : ChildrenMap) (k : String) (p : NodePtr)
    (h : m.keys.Nodup) : (m.insert k p).keys.Nodup := by
  unfold ChildrenMap.insert
  cases hf : m.find k with
  | some q => exact h
  | none =>
    have hk : k ∉ m.keys := (not_mem_keys_iff_find m k).2 hf
    simp only [ChildrenMap.keys, List.map_append, List.map_cons, List.map_nil]
    exact List.Nodup.append h (List.nodup_singleton k) (by
      intro a ha hb
      rw [List.mem_singleton] at hb
      subst hb
      exact hk ha)

theorem keys_nodup_indexChild (m : ChildrenMap) (i : Nat) (c : Node)
    (h : m.keys.Nodup) : (indexChild m i c).keys.Nodup := by
  unfold indexChild
  generalize m.insert c.mUid [i] = m₀, keys_nodup_insert m c.mUid [i] h = h₀
  clear h
  induction c.mChildrenMap generalizing m₀ with
  | nil => exact h₀
  | cons e l ih =>
    rw [List.foldl_cons]
    exact ih _ (keys_nodup_insert _ _ _ h₀)

theorem keys_nodup_indexChildren (cs : List Node) : ∀ (i : Nat) (m : ChildrenMap),
    m.keys.Nodup → (indexChildren cs i m).keys.Nodup := by
  induction cs with
  | nil => intro i m h; exact h
  | cons c cs ih =>
    intro i m h
    rw [indexChildren]
    exact ih _ _ (keys_nodup_indexChild m i c h)

/-- In a tree made by the copying operations no key occurs twice in a map:
the association list is a map. -/
theorem keys_nodup_of_produced (R : Node) (hR : Produced R) (q : NodePtr) (n : Node)
    (hq : R.deref q = some n) : n.mChildrenMap.keys.Nodup := by
  rw [rebuilt_of_produced R hR q n hq]
  exact keys_nodup_indexChildren _ 0 [] List.nodup_nil

/-! ## Lexicographic order and sorting -/

theorem lexLess_iff (as bs : List Char) : lexLess as bs = true ↔ as < bs := by
  induction as generalizing bs with
  | nil =>
    cases bs with
    | nil => simp [lexLess]
    | cons b bs => simp [lexLess, List.nil_lt_cons]
  | cons a as ih =>
    cases bs with
    | nil => simp [lexLess]
    | cons b bs =>
      have hab : a.toNat < b.toNat ↔ a < b := by
        rw [Char.lt_def]; rfl
      have hba : b.toNat < a.toNat ↔ b < a := by
        rw [Char.lt_def]; rfl
      rw [lexLess]
      by_cases h1 : a < b
      · rw [if_pos (hab.2 h1)]
        exact iff_of_true rfl (List.Lex.rel h1)
      · rw [if_neg (fun h => h1 (hab.1 h))]
        by_cases h2 : b < a
        · rw [if_pos (hba.2 h2)]
          refine iff_of_false (by simp) ?_
          intro h
          cases h with
          | rel h => exact h1 h
          | cons _ => exact lt_irrefl _ h2
        · rw [if_neg (fun h => h2 (hba.1 h)), ih]
          have hEq : a = b := le_antisymm (not_lt.1 h2) (not_lt.1 h1)
          subst hEq
          constructor
          · intro h; exact List.Lex.cons h
          · intro h
            cases h with
            | rel h => exact absurd h h1
            | cons h => exact h

theorem stringLess_iff (a b : String) : stringLess a b = true ↔ a < b := by
  unfold stringLess
  rw [lexLess_iff, String.lt_iff_toList_lt]
  rfl

theorem stringLess_false_iff (a b : String) : stringLess b a = false ↔ a ≤ b := by
  rw [← not_lt, ← stringLess_iff]
  cases stringLess b a <;> simp

theorem sortStrings_sorted (l : List String) :
    (sortStrings l).Sorted (fun a b => a ≤ b) := by
  have e : (fun a b : String => stringLess b a = false) = (fun a b => a ≤ b) := by
    funext a b
    exact propext (stringLess_false_iff a b)
  unfold sortStrings
  have h := List.sorted_insertionSort (fun a b : String => a ≤ b) l
  convert h using 2

theorem sortStrings_perm (l : List String) : (sortStrings l).Perm l :=
  List.perm_insertionSort _ l

/-! ## C11, C16: listing the nodes -/

theorem foldl_push_keys (l : ChildrenMap) (init : List String) :
    l.foldl (fun lNodes e => lNodes ++ [e.1]) init = init ++ l.keys := by
  induction l generalizing init with
  | nil => simp [ChildrenMap.keys]
  | cons e l ih =>
    rw [List.foldl_cons, ih]
    simp [ChildrenMap.keys]

theorem foldl_push_matching (f : String → Bool) (l : ChildrenMap) (init : List String) :
    l.foldl (fun lNodes e => if f e.1 then lNodes ++ [e.1] else lNodes) init
      = init ++ l.keys.filter f := by
  induction l generalizing init with
  | nil => simp [ChildrenMap.keys]
  | cons e l ih =>
    rw [List.foldl_cons, ih]
    by_cases h : f e.1 = true
    · simp [ChildrenMap.keys, h]
    · simp [ChildrenMap.keys, h]

theorem getNodes_eq_keys (n : Node) : getNodes n = n.mChildrenMap.keys := by
  unfold Node.getNodes
  rw [foldl_push_keys]
  rfl

theorem getNodesRegex_eq (regex_match : String → String → Bool) (n : Node) (aRegex : String) :
    getNodesRegex regex_match n aRegex
      = sortStrings (n.mChildrenMap.keys.filter (fun k => regex_match k aRegex)) := by
  unfold Node.getNodesRegex
  rw [foldl_push_matching (fun k => regex_match k aRegex)]
  rfl

/-- C11 — Regex listing. For every node, every whole-string matcher and every
expression, `getNodes(aRegex)` is in ascending lexicographic order and
contains exactly the keys of the map that the matcher accepts as a whole;
and when the map holds no key twice, as every `unordered_map` does, the
result has no duplicates either, so that the order is strictly ascending. -/
theorem regex_listing (regex_match : String → String → Bool) (n : Node) (aRegex : String) :
    (getNodesRegex regex_match n aRegex).Sorted (fun a b => a ≤ b) ∧
    (∀ k, k ∈ getNodesRegex regex_match n aRegex ↔
      k ∈ n.mChildrenMap.keys ∧ regex_match k aRegex = true) ∧
    (n.mChildrenMap.keys.Nodup →
      (getNodesRegex regex_match n aRegex).Nodup ∧
      (getNodesRegex regex_match n aRegex).Sorted (fun a b => a < b)) := by
  rw [getNodesRegex_eq]
  have hperm := sortStrings_perm (n.mChildrenMap.keys.filter (fun k => regex_match k aRegex))
  refine ⟨sortStrings_sorted _, fun k => ?_, fun hmap => ?_⟩
  · rw [hperm.mem_iff, List.mem_filter]
  · have hnd : (sortStrings
        (n.mChildrenMap.keys.filter (fun k => regex_match k aRegex))).Nodup :=
      hperm.nodup_iff.2 (hmap.filter _)
    exact ⟨hnd, (sortStrings_sorted _).lt_of_le hnd⟩

/-- Witness of C11 on the copy of a tree with keys `b, a, a.b, a.b.c, Z`:
the expression `a.*` lists `a, a.b, a.b.c` in order, and the expression `a`
lists `a` alone although `a.b` begins with a match. -/
theorem regex_listing_witness :
    (copy exTwo).mChildrenMap.keys.Nodup ∧
    getNodes (copy exTwo) = ["b", "a", "a.b", "a.b.c", "Z"] ∧
    getNodesRegex exMatch (copy exTwo) "a.*" = ["a", "a.b", "a.b.c"] ∧
    getNodesRegex exMatch (copy exTwo) "a" = ["a"] ∧
    (getNodesRegex exMatch (copy exTwo) "a.*").Sorted (fun a b => a ≤ b) ∧
    (∀ k, k ∈ getNodesRegex exMatch (copy exTwo) "a.*" ↔
      k ∈ (copy exTwo).mChildrenMap.keys ∧ exMatch k "a.*" = true) ∧
    (getNodesRegex exMatch (copy exTwo) "a.*").Nodup ∧
    (getNodesRegex exMatch (copy exTwo) "a.*").Sorted (fun a b => a < b) :=
  ⟨by decide, by decide, by decide, by decide,
   (regex_listing exMatch (copy exTwo) "a.*").1,
   (regex_listing exMatch (copy exTwo) "a.*").2.1,
   ((regex_listing exMatch (copy exTwo) "a.*").2.2 (by decide)).1,
   ((regex_listing exMatch (copy exTwo) "a.*").2.2 (by decide)).2⟩

/-- C16 — Unfiltered listing. For every node, `getNodes()` is a permutation
of the key sequence of the map (each entry gives its key once), its length is
the size of the map, and it contains the keys and nothing else; when the map
holds no key twice, as every `unordered_map` does, every key occurs in the
result exactly once. -/
theorem unfiltered_listing (n : Node) :
    (getNodes n).Perm n.mChildrenMap.keys ∧
    (getNodes n).length = n.mChildrenMap.length ∧
    (∀ k, k ∈ getNodes n ↔ k ∈ n.mChildrenMap.keys) ∧
    (n.mChildrenMap.keys.Nodup →
      (getNodes n).Nodup ∧ ∀ k, k ∈ n.mChildrenMap.keys → (getNodes n).count k = 1) := by
  rw [getNodes_eq_keys]
  refine ⟨List.Perm.refl _, by simp [ChildrenMap.keys], fun k => Iff.rfl, fun hmap => ?_⟩
  exact ⟨hmap, fun k hk => List.count_eq_one_of_mem hmap hk⟩

/-- Witness of C16 on the copy of the tree with keys `b, a, a.b, a.b.c, Z`. -/
theorem unfiltered_listing_witness :
    (copy exTwo).mChildrenMap.keys.Nodup ∧
    (getNodes (copy exTwo)).Perm (copy exTwo).mChildrenMap.keys ∧
    (getNodes (copy exTwo)).length = 5 ∧
    (getNodes (copy exTwo)).count "a.b" = 1 :=
  ⟨by decide,
   (unfiltered_listing (copy exTwo)).1,
   (unfiltered_listing (copy exTwo)).2.1,
   ((unfiltered_listing (copy exTwo)).2.2.2 (by decide)).2 "a.b" (by decide)⟩

/-! ## C12 – C15: what the register operations issue -/

theorem issued_thrown (o : Outcome ClientCall) (e : exception) (h : o = .thrown e) :
    o.issued = [] := by
  subst h
  rfl

theorem clientAfter_of_issued_nil (perform : ClientCall → ClientInterface → ClientInterface)
    (o : Outcome ClientCall) (client : ClientInterface) (h : o.issued = []) :
    o.clientAfter perform client = client := by
  unfold Outcome.clientAfter
  rw [h]
  rfl

theorem callClient_outcome (perform : ClientCall → ClientInterface → ClientInterface)
    (n : Node) (c : ClientCall) (st : ClientInterface) :
    (n.callClient perform c st).outcome = n.viaClient c ∧
    (n.callClient perform c st).issued = (n.viaClient c).issued ∧
    (n.callClient perform c st).client = (n.viaClient c).clientAfter perform st := by
  unfold Node.callClient Node.viaClient
  cases n.mHw <;> exact ⟨rfl, rfl, rfl⟩

theorem callClient_not_thrown (perform : ClientCall → ClientInterface → ClientInterface)
    (n : Node) (c : ClientCall) (st : ClientInterface) (e : exception) :
    (n.callClient perform c st).outcome ≠ .thrown e := by
  unfold Node.callClient
  cases n.mHw <;> simp

/-- Run against a client, the four operations end as the operations of
`Node` without the client state do. -/
theorem run_outcome (perform : ClientCall → ClientInterface → ClientInterface)
    (n : Node) (st : ClientInterface) :
    (n.readRun perform st).outcome = n.read ∧
    (∀ aValue : Nat, (n.writeRun perform aValue st).outcome = n.write aValue) ∧
    (∀ aSize : Nat, (n.readBlockRun perform aSize st).outcome = n.readBlock aSize) ∧
    (∀ aValues : List Nat,
      (n.writeBlockRun perform aValues st).outcome = n.writeBlock aValues) := by
  refine ⟨?_, fun aValue => ?_, fun aSize => ?_, fun aValues => ?_⟩
  · unfold Node.readRun Node.read
    split
    · split <;> exact (callClient_outcome perform n _ st).1
    · rfl
  · unfold Node.writeRun Node.write
    split
    · split <;> exact (callClient_outcome perform n _ st).1
    · rfl
  · unfold Node.readBlockRun Node.readBlock
    split
    · rfl
    · split
      · rfl
      · split
        · exact (callClient_outcome perform n _ st).1
        · rfl
  · unfold Node.writeBlockRun Node.writeBlock
    split
    · rfl
    · split
      · rfl
      · split
        · exact (callClient_outcome perform n _ st).1
        · rfl

/-- C12 — Atomic failure at the node layer. For every node, every client
behaviour `perform` and every client state, whenever `read`, `write`,
`readBlock` or `writeBlock`, run against that client, ends by throwing (any
exception, so in particular the four of the claim), it has issued no client
call, and the send buffer and the pending-reply list of the client are as
they were before the call. -/
theorem atomic_failure (n : Node)
    (perform : ClientCall → ClientInterface → ClientInterface) (client : ClientInterface)
    (e : exception) :
    ((n.readRun perform client).outcome = .thrown e →
      (n.readRun perform client).issued = [] ∧
      (n.readRun perform client).client.sendBuffer = client.sendBuffer ∧
      (n.readRun perform client).client.pendingReplies = client.pendingReplies) ∧
    (∀ aValue : Nat, (n.writeRun perform aValue client).outcome = .thrown e →
      (n.writeRun perform aValue client).issued = [] ∧
      (n.writeRun perform aValue client).client.sendBuffer = client.sendBuffer ∧
      (n.writeRun perform aValue client).client.pendingReplies = client.pendingReplies) ∧
    (∀ aSize : Nat, (n.readBlockRun perform aSize client).outcome = .thrown e →
      (n.readBlockRun perform aSize client).issued = [] ∧
      (n.readBlockRun perform aSize client).client.sendBuffer = client.sendBuffer ∧
      (n.readBlockRun perform aSize client).client.pendingReplies
        = client.pendingReplies) ∧
    (∀ aValues : List Nat, (n.writeBlockRun perform aValues client).outcome = .thrown e →
      (n.writeBlockRun perform aValues client).issued = [] ∧
      (n.writeBlockRun perform aValues client).client.sendBuffer = client.sendBuffer ∧
      (n.writeBlockRun perform aValues client).client.pendingReplies
        = client.pendingReplies) := by
  refine ⟨?_, fun aValue => ?_, fun aSize => ?_, fun aValues => ?_⟩
  · unfold Node.readRun
    split
    · split <;> exact fun h => absurd h (callClient_not_thrown perform n _ client e)
    · exact fun _ => ⟨rfl, rfl, rfl⟩
  · unfold Node.writeRun
    split
    · split <;> exact fun h => absurd h (callClient_not_thrown perform n _ client e)
    · exact fun _ => ⟨rfl, rfl, rfl⟩
  · unfold Node.readBlockRun
    split
    · exact fun _ => ⟨rfl, rfl, rfl⟩
    · split
      · exact fun _ => ⟨rfl, rfl, rfl⟩
      · split
        · exact fun h => absurd h (callClient_not_thrown perform n _ client e)
        · exact fun _ => ⟨rfl, rfl, rfl⟩
  · unfold Node.writeBlockRun
    split
    · exact fun _ => ⟨rfl, rfl, rfl⟩
    · split
      · exact fun _ => ⟨rfl, rfl, rfl⟩
      · split
        · exact fun h => absurd h (callClient_not_thrown perform n _ client e)
        · exact fun _ => ⟨rfl, rfl, rfl⟩

/-- Witness of C12: `readBlock(9)` on the block of size 8 throws and leaves
the client alone, while `readBlock(8)` reaches it; a write to a read-only
node leaves the send buffer alone. -/
theorem atomic_failure_witness :
    (exBlock.readBlockRun exPerform 9 { sendBuffer := [1, 2], pendingReplies := [3] }).outcome
      = .thrown .BulkTransferRequestedTooLarge ∧
    (exBlock.readBlockRun exPerform 9 { sendBuffer := [1, 2], pendingReplies := [3] }).issued
      = [] ∧
    (exBlock.readBlockRun exPerform 9
        { sendBuffer := [1, 2], pendingReplies := [3] }).client.sendBuffer = [1, 2] ∧
    (exBlock.readBlockRun exPerform 9
        { sendBuffer := [1, 2], pendingReplies := [3] }).client.pendingReplies = [3] ∧
    (exBlock.readBlockRun exPerform 8
        { sendBuffer := [1, 2], pendingReplies := [3] }).client.sendBuffer
      = [1, 2, 0x1000] ∧
    (exReadOnly.writeRun exPerform 5
        { sendBuffer := [1, 2], pendingReplies := [3] }).client.sendBuffer = [1, 2] :=
  ⟨by decide,
   ((atomic_failure exBlock exPerform { sendBuffer := [1, 2], pendingReplies := [3] }
     .BulkTransferRequestedTooLarge).2.2.1 9 (by decide)).1,
   ((atomic_failure exBlock exPerform { sendBuffer := [1, 2], pendingReplies := [3] }
     .BulkTransferRequestedTooLarge).2.2.1 9 (by decide)).2.1,
   ((atomic_failure exBlock exPerform { sendBuffer := [1, 2], pendingReplies := [3] }
     .BulkTransferRequestedTooLarge).2.2.1 9 (by decide)).2.2,
   by decide,
   ((atomic_failure exReadOnly exPerform { sendBuffer := [1, 2], pendingReplies := [3] }
     .WriteAccessDenied).2.1 5 (by decide)).2.1⟩

/-- The only exceptions the four register operations throw are the four
named by C12, each operation its own. -/
theorem thrown_kinds (n : Node) (e : exception) :
    (n.read = .thrown e → e = .ReadAccessDenied) ∧
    (∀ aValue : Nat, n.write aValue = .thrown e → e = .WriteAccessDenied) ∧
    (∀ aSize : Nat, n.readBlock aSize = .thrown e →
      e = .BulkTransferOnSingleRegister ∨ e = .BulkTransferRequestedTooLarge ∨
      e = .ReadAccessDenied) ∧
    (∀ aValues : List Nat, n.writeBlock aValues = .thrown e →
      e = .BulkTransferOnSingleRegister ∨ e = .BulkTransferRequestedTooLarge ∨
      e = .WriteAccessDenied) := by
  refine ⟨?_, ?_, ?_, ?_⟩
  · unfold Node.read Node.viaClient
    intro h
    split at h
    · split at h <;> cases hw : n.mHw <;> simp [hw] at h
    · simpa using h.symm
  · intro v
    unfold Node.write Node.viaClient
    intro h
    split at h
    · split at h <;> cases hw : n.mHw <;> simp [hw] at h
    · simpa using h.symm
  · intro k
    unfold Node.readBlock Node.viaClient
    intro h
    split at h
    · left; simpa using h.symm
    · split at h
      · right; left; simpa using h.symm
      · split at h
        · cases hw : n.mHw <;> simp [hw] at h
        · right; right; simpa using h.symm
  · intro vs
    unfold Node.writeBlock Node.viaClient
    intro h
    split at h
    · left; simpa using h.symm
    · split at h
      · right; left; simpa using h.symm
      · split at h
        · cases hw : n.mHw <;> simp [hw] at h
        · right; right; simpa using h.symm

/-- C13 — Mask routing. For every claimed node with the Write right,
`write(v)` issues exactly one client call, at the node's address and with `v`
unchanged: the raw `write(addr, v)` when the mask is `NOMASK`, the masked
`write(addr, v, mask)` for every other mask; with the Read right, `read()`
likewise issues `read(addr)` or `read(addr, mask)`. -/
theorem mask_routing (n : Node) (hw : n.mHw ≠ none) :
    (Access.Write.mem n.mPermission → ∀ aValue : Nat,
      (n.mMask = NOMASK →
        n.write aValue = .returned (.write n.mAddr aValue) ∧
        (n.write aValue).issued = [.write n.mAddr aValue]) ∧
      (n.mMask ≠ NOMASK →
        n.write aValue = .returned (.writeMasked n.mAddr aValue n.mMask) ∧
        (n.write aValue).issued = [.writeMasked n.mAddr aValue n.mMask])) ∧
    (Access.Read.mem n.mPermission →
      (n.mMask = NOMASK →
        n.read = .returned (.read n.mAddr) ∧ n.read.issued = [.read n.mAddr]) ∧
      (n.mMask ≠ NOMASK →
        n.read = .returned (.readMasked n.mAddr n.mMask) ∧
        n.read.issued = [.readMasked n.mAddr n.mMask])) := by
  constructor
  · intro hp aValue
    have hp' := (and_WRITE_ne_zero n.mPermission).2 hp
    constructor
    · intro hm
      have h : n.write aValue = .returned (.write n.mAddr aValue) := by
        unfold Node.write
        rw [if_pos hp', if_pos hm, viaClient_of_claimed n hw]
      exact ⟨h, by rw [h]; rfl⟩
    · intro hm
      have h : n.write aValue = .returned (.writeMasked n.mAddr aValue n.mMask) := by
        unfold Node.write
        rw [if_pos hp', if_neg hm, viaClient_of_claimed n hw]
      exact ⟨h, by rw [h]; rfl⟩
  · intro hp
    have hp' := (and_READ_ne_zero n.mPermission).2 hp
    constructor
    · intro hm
      have h : n.read = .returned (.read n.mAddr) := by
        unfold Node.read
        rw [if_pos hp', if_pos hm, viaClient_of_claimed n hw]
      exact ⟨h, by rw [h]; rfl⟩
    · intro hm
      have h : n.read = .returned (.readMasked n.mAddr n.mMask) := by
        unfold Node.read
        rw [if_pos hp', if_neg hm, viaClient_of_claimed n hw]
      exact ⟨h, by rw [h]; rfl⟩

/-- Witness of C13: the masked-write scenario (`0x12` at `0x1000` under mask
`0x00FF0000`) and an unmasked register. -/
theorem mask_routing_witness :
    exMasked.mHw ≠ none ∧ Access.Write.mem exMasked.mPermission ∧
    exMasked.mMask ≠ NOMASK ∧
    exMasked.write 0x12 = .returned (.writeMasked 0x1000 0x12 0x00FF0000) ∧
    exSingle.write 0x12 = .returned (.write 0x1000 0x12) ∧
    exSingle.read.issued = [.read 0x1000] :=
  ⟨by decide, by show Nat.testBit _ 1 = true; decide, by decide,
   (((mask_routing exMasked (by decide)).1
      (by show Nat.testBit _ 1 = true; decide) 0x12).2 (by decide)).1,
   (((mask_routing exSingle (by decide)).1
      (by show Nat.testBit _ 1 = true; decide) 0x12).1 (by decide)).1,
   (((mask_routing exSingle (by decide)).2
      (by show Nat.testBit _ 0 = true; decide)).1 (by decide)).2⟩

theorem swapReadWrite_and_WRITE (p : Nat) :
    swapReadWrite p &&& WRITE ≠ 0 ↔ p &&& READ ≠ 0 := by
  unfold swapReadWrite
  by_cases hw : p &&& WRITE ≠ 0 <;> by_cases hr : p &&& READ ≠ 0
  · rw [if_pos hw, if_pos hr]; exact iff_of_true (by decide) hr
  · rw [if_pos hw, if_neg hr]; exact iff_of_false (by decide) hr
  · rw [if_neg hw, if_pos hr]; exact iff_of_true (by decide) hr
  · rw [if_neg hw, if_neg hr]; exact iff_of_false (by decide) hr

theorem swapReadWrite_and_READ (p : Nat) :
    swapReadWrite p &&& READ ≠ 0 ↔ p &&& WRITE ≠ 0 := by
  unfold swapReadWrite
  by_cases hw : p &&& WRITE ≠ 0 <;> by_cases hr : p &&& READ ≠ 0
  · rw [if_pos hw, if_pos hr]; exact iff_of_true (by decide) hw
  · rw [if_pos hw, if_neg hr]; exact iff_of_true (by decide) hw
  · rw [if_neg hw, if_pos hr]; exact iff_of_false (by decide) hw
  · rw [if_neg hw, if_neg hr]; exact iff_of_false (by decide) hw

/-- C14 — Block write success. For every claimed node and all values,
`writeBlock(values)` issues a client call if and only if (the mode is not
`SINGLE` or there is one value) and (the size is 1 or there are at most size
values) and Write is in the permission; it then issues exactly one block
write carrying the node's address, the values as given and the node's mode. -/
theorem block_write_success (n : Node) (hw : n.mHw ≠ none) (aValues : List Nat) :
    ((n.writeBlock aValues).issued ≠ [] ↔
      (n.mMode ≠ BlockReadWriteMode.SINGLE ∨ aValues.length = 1) ∧
      (n.mSize = 1 ∨ aValues.length ≤ n.mSize) ∧
      Access.Write.mem n.mPermission) ∧
    ((n.mMode ≠ BlockReadWriteMode.SINGLE ∨ aValues.length = 1) →
      (n.mSize = 1 ∨ aValues.length ≤ n.mSize) →
      Access.Write.mem n.mPermission →
      n.writeBlock aValues = .returned (.writeBlock n.mAddr aValues n.mMode) ∧
      (n.writeBlock aValues).issued = [.writeBlock n.mAddr aValues n.mMode]) := by
  have hgo : (n.mMode ≠ BlockReadWriteMode.SINGLE ∨ aValues.length = 1) →
      (n.mSize = 1 ∨ aValues.length ≤ n.mSize) →
      Access.Write.mem n.mPermission →
      n.writeBlock aValues = .returned (.writeBlock n.mAddr aValues n.mMode) := by
    intro h1 h2 h3
    unfold Node.writeBlock
    rw [if_neg (by rintro ⟨ha, hb⟩; rcases h1 with h | h; exact h ha; exact hb h),
      if_neg (by rintro ⟨ha, hb⟩; rcases h2 with h | h; exact ha h; omega),
      if_pos ((and_WRITE_ne_zero _).2 h3), viaClient_of_claimed n hw]
  constructor
  · constructor
    · intro hi
      by_cases hA : n.mMode = BlockReadWriteMode.SINGLE ∧ aValues.length ≠ 1
      · exfalso; apply hi
        unfold Node.writeBlock
        rw [if_pos hA]; rfl
      · by_cases hB : n.mSize ≠ 1 ∧ aValues.length > n.mSize
        · exfalso; apply hi
          unfold Node.writeBlock
          rw [if_neg hA, if_pos hB]; rfl
        · by_cases hP : n.mPermission &&& WRITE ≠ 0
          · refine ⟨?_, ?_, (and_WRITE_ne_zero _).1 hP⟩
            · by_cases hm : n.mMode = BlockReadWriteMode.SINGLE
              · right
                by_contra hl
                exact hA ⟨hm, hl⟩
              · exact Or.inl hm
            · by_cases hs : n.mSize = 1
              · exact Or.inl hs
              · right
                by_contra hl
                exact hB ⟨hs, by omega⟩
          · exfalso; apply hi
            unfold Node.writeBlock
            rw [if_neg hA, if_neg hB, if_neg hP]; rfl
    · rintro ⟨h1, h2, h3⟩
      rw [hgo h1 h2 h3]
      simp [Outcome.issued]
  · intro h1 h2 h3
    exact ⟨hgo h1 h2 h3, by rw [hgo h1 h2 h3]; rfl⟩

/-- Witness of C14: three words written to the read-write block of size 8
reach the client; the read-only block issues nothing. -/
theorem block_write_success_witness :
    exBlock.mHw ≠ none ∧
    exBlock.writeBlock [1, 2, 3] = .returned (.writeBlock 0x1000 [1, 2, 3] .INCREMENTAL) ∧
    (exReadOnly.writeBlock [1, 2, 3]).issued = [] ∧
    ((exBlock.writeBlock [1, 2, 3]).issued ≠ [] ↔
      (exBlock.mMode ≠ BlockReadWriteMode.SINGLE ∨ [1, 2, 3].length = 1) ∧
      (exBlock.mSize = 1 ∨ [1, 2, 3].length ≤ exBlock.mSize) ∧
      Access.Write.mem exBlock.mPermission) :=
  ⟨by decide,
   ((block_write_success exBlock (by decide) [1, 2, 3]).2 (by decide) (by decide)
     (by show Nat.testBit _ 1 = true; decide)).1,
   by decide,
   (block_write_success exBlock (by decide) [1, 2, 3]).1⟩

/-- C15 — Read/write symmetry of the block operations. For every node and
every `n`, with any vector of length `n`: `readBlock(n)` throws
`BulkTransferOnSingleRegister`, respectively `BulkTransferRequestedTooLarge`,
exactly when `writeBlock` does; when it throws neither and the node is
claimed, it issues the one block read `(addr, n, mode)` if and only if Read
is in the permission; and it throws `ReadAccessDenied` exactly when
`writeBlock` throws `WriteAccessDenied` on the node with Read and Write
exchanged. -/
theorem block_read_write_symmetry (n : Node) (aSize : Nat) (aValues : List Nat)
    (hlen : aValues.length = aSize) :
    (n.readBlock aSize = .thrown .BulkTransferOnSingleRegister ↔
      n.writeBlock aValues = .thrown .BulkTransferOnSingleRegister) ∧
    (n.readBlock aSize = .thrown .BulkTransferRequestedTooLarge ↔
      n.writeBlock aValues = .thrown .BulkTransferRequestedTooLarge) ∧
    (n.readBlock aSize ≠ .thrown .BulkTransferOnSingleRegister →
      n.readBlock aSize ≠ .thrown .BulkTransferRequestedTooLarge →
      n.mHw ≠ none →
      ((n.readBlock aSize).issued = [.readBlock n.mAddr aSize n.mMode] ↔
        Access.Read.mem n.mPermission)) ∧
    (n.readBlock aSize = .thrown .ReadAccessDenied ↔
      ({ n with mPermission := swapReadWrite n.mPermission } : Node).writeBlock aValues
        = .thrown .WriteAccessDenied) := by
  subst hlen
  have hsw := swapReadWrite_and_WRITE n.mPermission
  have hrd := and_READ_ne_zero n.mPermission
  unfold Node.readBlock Node.writeBlock Node.viaClient
  by_cases hA : n.mMode = BlockReadWriteMode.SINGLE ∧ aValues.length ≠ 1
  · simp only [if_pos hA]
    simp
  · simp only [if_neg hA]
    by_cases hB : n.mSize ≠ 1 ∧ aValues.length > n.mSize
    · simp only [if_pos hB]
      simp
    · simp only [if_neg hB]
      by_cases hR : n.mPermission &&& READ ≠ 0
      · have hW : swapReadWrite n.mPermission &&& WRITE ≠ 0 := hsw.2 hR
        simp only [if_pos hR, if_pos hW]
        refine ⟨?_, ?_, ?_, ?_⟩
        · by_cases hP : n.mPermission &&& WRITE ≠ 0 <;> cases n.mHw <;> simp [hP]
        · by_cases hP : n.mPermission &&& WRITE ≠ 0 <;> cases n.mHw <;> simp [hP]
        · intro _ _ hw
          cases hh : n.mHw with
          | none => exact absurd hh hw
          | some x => simp [Outcome.issued, hrd.1 hR]
        · cases n.mHw <;> simp
      · have hW : ¬ (swapReadWrite n.mPermission &&& WRITE ≠ 0) := fun h => hR (hsw.1 h)
        simp only [if_neg hR, if_neg hW]
        refine ⟨?_, ?_, ?_, ?_⟩
        · by_cases hP : n.mPermission &&& WRITE ≠ 0 <;> cases n.mHw <;> simp [hP]
        · by_cases hP : n.mPermission &&& WRITE ≠ 0 <;> cases n.mHw <;> simp [hP]
        · intro _ _ _
          simp only [Outcome.issued]
          constructor
          · intro h; cases h
          · intro h; exact absurd (hrd.2 h) hR
        · simp

/-- Witness of C15 with five words on blocks of size 4. -/
theorem block_read_write_symmetry_witness :
    [1, 2, 3, 4, 5].length = 5 ∧
    exReadOnly.readBlock 5 = .thrown .BulkTransferRequestedTooLarge ∧
    exReadOnly.writeBlock [1, 2, 3, 4, 5] = .thrown .BulkTransferRequestedTooLarge ∧
    exWriteOnly.readBlock 5 ≠ .thrown .ReadAccessDenied ∧
    (exReadOnly.readBlock 5).issued ≠ [.readBlock 0x1000 5 .INCREMENTAL] :=
  ⟨rfl, by decide,
   (block_read_write_symmetry exReadOnly 5 [1, 2, 3, 4, 5] rfl).2.1.1 (by decide),
   fun h => absurd ((block_read_write_symmetry exWriteOnly 5 [1, 2, 3, 4, 5] rfl).2.2.2.1 h)
     (by decide),
   by decide⟩

/-! ## C17: `HwInterface` -/

theorem claimChildren_eq_map (this : Nat) (cs : List Node) :
    claimChildren this cs = cs.map (claimNode this) := by
  induction cs with
  | nil => simp [claimChildren]
  | cons c cs ih => simp [claimChildren, ih]

theorem claimNode_mChildren (this : Nat) (n : Node) :
    (claimNode this n).mChildren = n.mChildren.map (claimNode this) := by
  cases n
  simp [claimNode, claimChildren_eq_map]

theorem deref_claimNode (this : Nat) (q : NodePtr) : ∀ T : Node,
    (claimNode this T).deref q = (T.deref q).map (claimNode this) := by
  induction q with
  | nil => intro T; simp [Node.deref]
  | cons i q ih =>
    intro T
    rw [Node.deref, Node.deref, claimNode_mChildren, List.getElem?_map]
    cases T.mChildren[i]? with
    | none => rfl
    | some c => exact ih c

/-- C17 — Back-reference stamping. After `HwInterface` is constructed at
address `this` over a root, every node of the tree (the root, at `q = []`,
and every descendant at every depth) is still at its position, has
`mHw = this`, has the id, addresses, mask, permission, mode, size, metadata
and map it had, and has the stamped versions of its children, in order. -/
theorem back_reference_stamping (this aClientInterface : Nat) (aNode : Node)
    (q : NodePtr) (n : Node) (hq : aNode.deref q = some n) :
    ∃ n', (HwInterface.construct this aClientInterface aNode).mNode.deref q = some n' ∧
      n'.mHw = some this ∧
      n'.mUid = n.mUid ∧ n'.mPartialAddr = n.mPartialAddr ∧ n'.mAddr = n.mAddr ∧
      n'.mMask = n.mMask ∧ n'.mPermission = n.mPermission ∧ n'.mMode = n.mMode ∧
      n'.mSize = n.mSize ∧ n'.mTags = n.mTags ∧ n'.mDescription = n.mDescription ∧
      n'.mModule = n.mModule ∧ n'.mParameters = n.mParameters ∧
      n'.mChildren = n.mChildren.map (claimNode this) ∧
      n'.mChildrenMap = n.mChildrenMap := by
  refine ⟨claimNode this n, ?_, ?_⟩
  · show (claimNode this aNode).deref q = some (claimNode this n)
    rw [deref_claimNode, hq]
    rfl
  · have hch := claimNode_mChildren this n
    cases n
    exact ⟨rfl, rfl, rfl, rfl, rfl, rfl, rfl, rfl, rfl, rfl, rfl, rfl, hch, rfl⟩

/-- Witness of C17 at the grandchild `a.b` of the chain. -/
theorem back_reference_stamping_witness :
    (copy exChain).deref [0, 0] = some (copy { exLeaf "b" with mChildren := [exLeaf "c"] }) ∧
    ∃ n', (HwInterface.construct 9 1 (copy exChain)).mNode.deref [0, 0] = some n' ∧
      n'.mHw = some 9 ∧ n'.mUid = "b" ∧
      n'.mChildrenMap = [("c", [0])] := by
  obtain ⟨n', h⟩ := back_reference_stamping 9 1 (copy exChain) [0, 0]
    (copy { exLeaf "b" with mChildren := [exLeaf "c"] }) rfl
  exact ⟨rfl, n', h.1, h.2.1, h.2.2.1, h.2.2.2.2.2.2.2.2.2.2.2.2.2.2⟩

/-! ## C18 – C20: empty path, window size, the diagnostic loop -/

/-- C18 — Empty-path lookup. For every node, whatever its map and whatever
the fuel, `getNode("")` returns the node itself and throws nothing. -/
theorem empty_path_lookup (n : Node) (fuel : Nat) :
    getNode fuel n "" = some (.returned []) ∧ n.deref [] = some n := by
  constructor
  · unfold Node.getNode
    rw [if_pos (by decide)]
  · rfl

/-- C19 — ControlHub window size. For every ControlHub layer, whatever its
inner protocol and state, `getMaxNumberOfBuffers` returns 16. -/
theorem controlHub_max_buffers (InnerProtocol : Type) (hub : ControlHub InnerProtocol) :
    hub.getMaxNumberOfBuffers = 16 := by
  rfl

/-- C20 — Termination of the miss diagnostic, evaluated where the code
departs from the claim: for the path `.x` and an empty map, the first search
stops at position 0, the empty string is not a key, and `lPos--` takes the
position from 0 up to `npos`, where it started; the loop has not ended after
(number of dots) + 1 = 2 turns, nor after any number of turns. -/
theorem diagnostic_loop_wraps_and_never_exits :
    rfind ".x" '.' npos = 0 ∧
    Node.default.mChildrenMap.find (substr ".x" 0 0) = none ∧
    (0 + (2 ^ 64 - 1)) % 2 ^ 64 = npos ∧
    getNodeLoop Node.default.mChildrenMap ".x" (".x".data.count '.' + 1) npos = none ∧
    ∀ fuel : Nat, getNodeLoop Node.default.mChildrenMap ".x" fuel npos = none :=
  ⟨by decide, by decide, by decide, by decide,
   fun fuel => getNodeLoop_stuck Node.default.mChildrenMap ".x" (by decide) (by decide) fuel⟩

theorem count_take_succ_of_dot (l : List Char) (i : Nat) (h : l[i]? = some '.') :
    (l.take (i + 1)).count '.' = (l.take i).count '.' + 1 := by
  rw [List.take_succ, h]
  simp

theorem count_take_le (l : List Char) (i j : Nat) (h : i ≤ j) :
    (l.take i).count '.' ≤ (l.take j).count '.' := by
  have e : l.take i = (l.take j).take i := by
    rw [List.take_take, Nat.min_eq_left h]
  rw [e]
  exact (List.take_sublist i (l.take j)).count_le '.'

/-- When the path does not begin with a `'.'`, the loop entered at `lPos`
ends within one turn more than there are dots at positions up to `lPos`. -/
theorem getNodeLoop_terminates_dots (m : ChildrenMap) (aId : String)
    (hlen : aId.length ≤ npos) (h0 : aId.data[0]? ≠ some '.') (fuel : Nat) :
    ∀ lPos : Nat, (aId.data.take (lPos + 1)).count '.' + 1 ≤ fuel →
      ∃ r, getNodeLoop m aId fuel lPos = some r := by
  induction fuel with
  | zero => intro lPos h; omega
  | succ fuel ih =>
    intro lPos hfuel
    rw [getNodeLoop]
    rcases rfind_spec aId '.' lPos hlen with ⟨h1, _⟩ | ⟨i, h1, hne, hle, hlt, hdot, _⟩
    · exact ⟨none, by simp only [h1, if_true]⟩
    · simp only [h1, if_neg hne]
      cases hf : m.find (substr aId 0 i) with
      | some p => exact ⟨_, rfl⟩
      | none =>
        have hi0 : i ≠ 0 := by
          rintro rfl
          exact h0 hdot
        have hi64 : i < 2 ^ 64 := by
          have e : (2 : Nat) ^ 64 = 18446744073709551616 := by norm_num
          rw [npos_eq] at hlen
          omega
        simp only [dec_wrap i hi64, if_neg hi0]
        refine ih (i - 1) ?_
        have e1 : i - 1 + 1 = i := by omega
        rw [e1]
        have h2 := count_take_succ_of_dot aId.data i hdot
        have h3 := count_take_le aId.data (i + 1) (lPos + 1) (by omega)
        omega

/-- Off the leading-dot paths the bound of the claim holds: the loop entered
at `npos` ends within (number of dots) + 1 turns. -/
theorem getNodeLoop_bound (m : ChildrenMap) (aId : String)
    (hlen : aId.length ≤ npos) (h0 : aId.data[0]? ≠ some '.') :
    ∃ r, getNodeLoop m aId (aId.data.count '.' + 1) npos = some r := by
  refine getNodeLoop_terminates_dots m aId hlen h0 _ npos ?_
  have : aId.data.take (npos + 1) = aId.data :=
    List.take_of_length_le (by
      have hl : aId.length = aId.data.length := rfl
      omega)
  rw [this]

/-! ## C21: `operator=` -/

/-- Assignment from another node leaves exactly what the copy constructor
builds from that node; nothing of the old `*this` enters the result. -/
theorem assign_some_eq_copy (self aNode : Node) : assign self (some aNode) = copy aNode := by
  cases aNode
  rfl

/-- Off self-assignment C21 holds: after `a = b` with `b` another node, `a`
does not depend on what it was, and at every position of `b` it has a node
with the members of the node of `b`, the copies of its children in order,
and the same key set whenever the keys of `b`'s node are its dotted
descendant paths. -/
theorem assign_deep_copy (self aNode : Node) (q : NodePtr) (n : Node)
    (hq : aNode.deref q = some n) :
    (∀ self' : Node, assign self (some aNode) = assign self' (some aNode)) ∧
    ∃ n', (assign self (some aNode)).deref q = some n' ∧
      n'.mHw = n.mHw ∧ n'.mUid = n.mUid ∧ n'.mPartialAddr = n.mPartialAddr ∧
      n'.mAddr = n.mAddr ∧ n'.mMask = n.mMask ∧ n'.mPermission = n.mPermission ∧
      n'.mMode = n.mMode ∧ n'.mSize = n.mSize ∧ n'.mTags = n.mTags ∧
      n'.mDescription = n.mDescription ∧ n'.mModule = n.mModule ∧
      n'.mParameters = n.mParameters ∧
      n'.mChildren = n.mChildren.map copy ∧
      (IndexedByPaths n → ∀ k, k ∈ n'.mChildrenMap.keys ↔ k ∈ n.mChildrenMap.keys) := by
  refine ⟨fun self' => by rw [assign_some_eq_copy, assign_some_eq_copy], copy n, ?_, ?_⟩
  · rw [assign_some_eq_copy, deref_copy, hq]
    rfl
  · have hkeys : IndexedByPaths n →
        ∀ k, k ∈ (copy n).mChildrenMap.keys ↔ k ∈ n.mChildrenMap.keys := by
      intro hI k
      rw [hI k, rebuilt_indexedByPaths (copy n) (rebuilt_copy n) k]
      simp only [idsAlong_copy]
    have hch := copy_mChildren n
    cases n
    exact ⟨rfl, rfl, rfl, rfl, rfl, rfl, rfl, rfl, rfl, rfl, rfl, rfl, hch, hkeys⟩

/-- C21 — Assignment is a deep copy, evaluated where the code departs from
the claim: the copy of the chain `a.b.c` has one child and the keys
`a, a.b, a.b.c`; after it is assigned to itself it keeps its id but has no
children and an empty map. -/
theorem self_assignment_loses_children :
    (copy exChain).mChildren.length = 1 ∧
    (copy exChain).mChildrenMap.keys = ["a", "a.b", "a.b.c"] ∧
    (assign (copy exChain) none).mUid = (copy exChain).mUid ∧
    (assign (copy exChain) none).mChildren = [] ∧
    (assign (copy exChain) none).mChildrenMap = [] :=
  ⟨by decide, by decide, rfl, rfl, rfl⟩

/-- Self-assignment empties every node: the children are deleted before the
loop that clones `aNode.mChildren` runs over the same, now empty, deque. -/
theorem self_assignment_in_general (self : Node) :
    (assign self none).mChildren = [] ∧ (assign self none).mChildrenMap = [] :=
  ⟨rfl, rfl⟩

/-! ## C22, C23: order of the tests in the block operations -/

/-- C22 — Error precedence in the block operations. For every node and every
length: when the mode is `SINGLE` and the length is not 1 the error is
`BulkTransferOnSingleRegister`, whatever the size and the permission; when
that test passes and the length exceeds a size other than 1 the error is
`BulkTransferRequestedTooLarge`, whatever the permission; and
`WriteAccessDenied` / `ReadAccessDenied` is thrown only when both tests pass
and the right is missing. -/
theorem error_precedence (n : Node) :
    (∀ aValues : List Nat,
      (n.mMode = BlockReadWriteMode.SINGLE → aValues.length ≠ 1 →
        n.writeBlock aValues = .thrown .BulkTransferOnSingleRegister) ∧
      (¬ (n.mMode = BlockReadWriteMode.SINGLE ∧ aValues.length ≠ 1) →
        n.mSize ≠ 1 → n.mSize < aValues.length →
        n.writeBlock aValues = .thrown .BulkTransferRequestedTooLarge) ∧
      (n.writeBlock aValues = .thrown .WriteAccessDenied →
        ¬ (n.mMode = BlockReadWriteMode.SINGLE ∧ aValues.length ≠ 1) ∧
        ¬ (n.mSize ≠ 1 ∧ n.mSize < aValues.length) ∧
        ¬ Access.Write.mem n.mPermission)) ∧
    (∀ aSize : Nat,
      (n.mMode = BlockReadWriteMode.SINGLE → aSize ≠ 1 →
        n.readBlock aSize = .thrown .BulkTransferOnSingleRegister) ∧
      (¬ (n.mMode = BlockReadWriteMode.SINGLE ∧ aSize ≠ 1) →
        n.mSize ≠ 1 → n.mSize < aSize →
        n.readBlock aSize = .thrown .BulkTransferRequestedTooLarge) ∧
      (n.readBlock aSize = .thrown .ReadAccessDenied →
        ¬ (n.mMode = BlockReadWriteMode.SINGLE ∧ aSize ≠ 1) ∧
        ¬ (n.mSize ≠ 1 ∧ n.mSize < aSize) ∧
        ¬ Access.Read.mem n.mPermission)) := by
  constructor
  · intro aValues
    refine ⟨fun hm hl => ?_, fun hA hs hl => ?_, fun h => ?_⟩
    · unfold Node.writeBlock
      rw [if_pos ⟨hm, hl⟩]
    · unfold Node.writeBlock
      rw [if_neg hA, if_pos ⟨hs, hl⟩]
    · unfold Node.writeBlock Node.viaClient at h
      by_cases hA : n.mMode = BlockReadWriteMode.SINGLE ∧ aValues.length ≠ 1
      · rw [if_pos hA] at h; cases h
      · rw [if_neg hA] at h
        by_cases hB : n.mSize ≠ 1 ∧ aValues.length > n.mSize
        · rw [if_pos hB] at h; cases h
        · rw [if_neg hB] at h
          by_cases hP : n.mPermission &&& WRITE ≠ 0
          · rw [if_pos hP] at h
            cases hh : n.mHw <;> simp [hh] at h
          · exact ⟨hA, hB, fun hmem => hP ((and_WRITE_ne_zero _).2 hmem)⟩
  · intro aSize
    refine ⟨fun hm hl => ?_, fun hA hs hl => ?_, fun h => ?_⟩
    · unfold Node.readBlock
      rw [if_pos ⟨hm, hl⟩]
    · unfold Node.readBlock
      rw [if_neg hA, if_pos ⟨hs, hl⟩]
    · unfold Node.readBlock Node.viaClient at h
      by_cases hA : n.mMode = BlockReadWriteMode.SINGLE ∧ aSize ≠ 1
      · rw [if_pos hA] at h; cases h
      · rw [if_neg hA] at h
        by_cases hB : n.mSize ≠ 1 ∧ aSize > n.mSize
        · rw [if_pos hB] at h; cases h
        · rw [if_neg hB] at h
          by_cases hP : n.mPermission &&& READ ≠ 0
          · rw [if_pos hP] at h
            cases hh : n.mHw <;> simp [hh] at h
          · exact ⟨hA, hB, fun hmem => hP ((and_READ_ne_zero _).2 hmem)⟩

/-- Witness of C22 with the examples of the claim: a `SINGLE` node without
Write given 2 values, and an incremental node of size 4 without Write given
5 values (and, given 4 values, refused for the missing right only). -/
theorem error_precedence_witness :
    exSingleReadOnly.mMode = BlockReadWriteMode.SINGLE ∧
    ¬ Access.Write.mem exSingleReadOnly.mPermission ∧
    exSingleReadOnly.writeBlock [1, 2] = .thrown .BulkTransferOnSingleRegister ∧
    ¬ Access.Write.mem exReadOnly.mPermission ∧
    exReadOnly.writeBlock [1, 2, 3, 4, 5] = .thrown .BulkTransferRequestedTooLarge ∧
    exReadOnly.writeBlock [1, 2, 3, 4] = .thrown .WriteAccessDenied ∧
    exWriteOnly.readBlock 5 = .thrown .BulkTransferRequestedTooLarge :=
  ⟨by decide, by show ¬ (Nat.testBit _ 1 = true); decide,
   ((error_precedence exSingleReadOnly).1 [1, 2]).1 (by decide) (by decide),
   by show ¬ (Nat.testBit _ 1 = true); decide,
   ((error_precedence exReadOnly).1 [1, 2, 3, 4, 5]).2.1 (by decide) (by decide) (by decide),
   by decide,
   ((error_precedence exWriteOnly).2 5).2.1 (by decide) (by decide) (by decide)⟩

/-- C23 as stated fails on a `SINGLE` node of size 0 given 2 values (or asked
for 2 words): the block operation has length at least 1 and is rejected, but
with `BulkTransferOnSingleRegister`, not `BulkTransferRequestedTooLarge`. -/
theorem size_zero_single_raises_single :
    exSingleZero.mSize = 0 ∧ 1 ≤ [1, 2].length ∧
    exSingleZero.writeBlock [1, 2] = .thrown .BulkTransferOnSingleRegister ∧
    exSingleZero.writeBlock [1, 2] ≠ .thrown .BulkTransferRequestedTooLarge ∧
    exSingleZero.readBlock 2 = .thrown .BulkTransferOnSingleRegister ∧
    exSingleZero.readBlock 2 ≠ .thrown .BulkTransferRequestedTooLarge := by
  decide

/-- C23, amended — Size-1 block endpoints are unbounded. For every node whose
mode is not `SINGLE` and whose size is 1, `writeBlock` and `readBlock` of any
length never end with `BulkTransferRequestedTooLarge` and depend on the
permission only: with the right the call is forwarded to the client, without
it the access is denied. For every node of size 0, a block operation of
length at least 1 throws `BulkTransferRequestedTooLarge` unless the mode is
`SINGLE` and the length is not 1. -/
theorem size_one_unbounded (n : Node) :
    (n.mMode ≠ BlockReadWriteMode.SINGLE → n.mSize = 1 →
      (∀ aValues : List Nat,
        n.writeBlock aValues ≠ .thrown .BulkTransferRequestedTooLarge ∧
        (Access.Write.mem n.mPermission →
          n.writeBlock aValues = n.viaClient (.writeBlock n.mAddr aValues n.mMode)) ∧
        (¬ Access.Write.mem n.mPermission →
          n.writeBlock aValues = .thrown .WriteAccessDenied)) ∧
      (∀ aSize : Nat,
        n.readBlock aSize ≠ .thrown .BulkTransferRequestedTooLarge ∧
        (Access.Read.mem n.mPermission →
          n.readBlock aSize = n.viaClient (.readBlock n.mAddr aSize n.mMode)) ∧
        (¬ Access.Read.mem n.mPermission →
          n.readBlock aSize = .thrown .ReadAccessDenied))) ∧
    (n.mSize = 0 →
      (∀ aValues : List Nat, 1 ≤ aValues.length →
        (n.mMode ≠ BlockReadWriteMode.SINGLE ∨ aValues.length = 1) →
        n.writeBlock aValues = .thrown .BulkTransferRequestedTooLarge) ∧
      (∀ aSize : Nat, 1 ≤ aSize →
        (n.mMode ≠ BlockReadWriteMode.SINGLE ∨ aSize = 1) →
        n.readBlock aSize = .thrown .BulkTransferRequestedTooLarge)) := by
  constructor
  · intro hm hs
    constructor
    · intro aValues
      have hA : ¬ (n.mMode = BlockReadWriteMode.SINGLE ∧ aValues.length ≠ 1) :=
        fun h => hm h.1
      have hB : ¬ (n.mSize ≠ 1 ∧ aValues.length > n.mSize) := fun h => h.1 hs
      have hyes : Access.Write.mem n.mPermission →
          n.writeBlock aValues = n.viaClient (.writeBlock n.mAddr aValues n.mMode) := by
        intro hp
        unfold Node.writeBlock
        rw [if_neg hA, if_neg hB, if_pos ((and_WRITE_ne_zero _).2 hp)]
      have hno : ¬ Access.Write.mem n.mPermission →
          n.writeBlock aValues = .thrown .WriteAccessDenied := by
        intro hp
        unfold Node.writeBlock
        rw [if_neg hA, if_neg hB, if_neg (fun h => hp ((and_WRITE_ne_zero _).1 h))]
      refine ⟨?_, hyes, hno⟩
      by_cases hp : Access.Write.mem n.mPermission
      · rw [hyes hp]
        unfold Node.viaClient
        cases n.mHw <;> simp
      · rw [hno hp]
        simp
    · intro aSize
      have hA : ¬ (n.mMode = BlockReadWriteMode.SINGLE ∧ aSize ≠ 1) := fun h => hm h.1
      have hB : ¬ (n.mSize ≠ 1 ∧ aSize > n.mSize) := fun h => h.1 hs
      have hyes : Access.Read.mem n.mPermission →
          n.readBlock aSize = n.viaClient (.readBlock n.mAddr aSize n.mMode) := by
        intro hp
        unfold Node.readBlock
        rw [if_neg hA, if_neg hB, if_pos ((and_READ_ne_zero _).2 hp)]
      have hno : ¬ Access.Read.mem n.mPermission →
          n.readBlock aSize = .thrown .ReadAccessDenied := by
        intro hp
        unfold Node.readBlock
        rw [if_neg hA, if_neg hB, if_neg (fun h => hp ((and_READ_ne_zero _).1 h))]
      refine ⟨?_, hyes, hno⟩
      by_cases hp : Access.Read.mem n.mPermission
      · rw [hyes hp]
        unfold Node.viaClient
        cases n.mHw <;> simp
      · rw [hno hp]
        simp
  · intro hs
    constructor
    · intro aValues hl hm
      unfold Node.writeBlock
      rw [if_neg (by rintro ⟨ha, hb⟩; rcases hm with h | h; exact h ha; exact hb h),
        if_pos ⟨by omega, by omega⟩]
    · intro aSize hl hm
      unfold Node.readBlock
      rw [if_neg (by rintro ⟨ha, hb⟩; rcases hm with h | h; exact h ha; exact hb h),
        if_pos ⟨by omega, by omega⟩]

/-- Witness of C23 (amended): a FIFO of size 1 takes 0 values and is not too
small for 1000 words; blocks of size 0 reject length 1, also in `SINGLE`
mode. -/
theorem size_one_unbounded_witness :
    exFifo.mMode ≠ BlockReadWriteMode.SINGLE ∧ exFifo.mSize = 1 ∧
    exFifo.writeBlock [] = .returned (.writeBlock 0x1000 [] .NON_INCREMENTAL) ∧
    exFifo.readBlock 1000 ≠ .thrown .BulkTransferRequestedTooLarge ∧
    exZero.mSize = 0 ∧
    exZero.readBlock 1 = .thrown .BulkTransferRequestedTooLarge ∧
    exSingleZero.writeBlock [7] = .thrown .BulkTransferRequestedTooLarge :=
  ⟨by decide, by decide,
   (((size_one_unbounded exFifo).1 (by decide) (by decide)).1 []).2.1
     (by show Nat.testBit _ 1 = true; decide),
   (((size_one_unbounded exFifo).1 (by decide) (by decide)).2 1000).1,
   by decide,
   ((size_one_unbounded exZero).2 (by decide)).2 1 (by decide) (Or.inl (by decide)),
   ((size_one_unbounded exSingleZero).2 (by decide)).1 [7] (by decide) (Or.inr (by decide))⟩

end uhal
